import Mathlib

set_option maxRecDepth 100000

/-!
Verification development for the document-extraction normalization pipeline:
`NominalFormatter.format_nominal_to_international_format` /
`format_all_nominal_fields` (src/utils/nominal_formatter.py) and
`OCRService._merge_multi_page_results` (src/services/ocr_service.py).

The Python code is embedded shallowly:

* Strings are `List Char` / `String`; characters are compared as ASCII.
  The source's regexes use `\d`; we model `\d` (and `str.lower`,
  `str.strip`) on the ASCII range, which is the range exercised by the
  spec and all inputs considered here.
* CPython `float(...)` followed by `f"{num:.2f}"` is modelled exactly
  over decimal pairs `mant * 10 ^ dexp` (`mant : ℕ`, `dexp : ℤ`): the
  decimal literal grammar (signs, optional single dot, exponent,
  underscore separators, surrounding whitespace) is parsed to that exact
  decimal value, values at or above the IEEE-754 binary64 overflow
  threshold `2^1024 - 2^970` become `inf` (CPython's `strtod` returns
  `HUGE_VAL` there, no exception), values between the largest finite
  double `2^1024 - 2^971` and the threshold round down to that largest
  finite double, and `%.2f` is round-half-even at two decimals.  Sub-ulp
  binary quantization below the largest double is idealized as exact; it
  is invisible at two decimal places for the magnitudes the spec
  discusses.  The float's sign is tracked separately from its magnitude
  so that the sign of `-0.0` (which `%.2f` prints as `-0.00`) is
  preserved.
* Python dicts are association lists with first-key lookup and
  insert-or-overwrite-in-place assignment (Python preserves insertion
  order and dict keys are unique); `copy.deepcopy` on immutable-value
  records is the identity in a pure model.
* Exceptions (`TypeError` from `"abc" + 5`, `AttributeError` from
  `(non-dict).items()`) are modelled with `Except String`.
-/

/-- Characters stripped by Python `str.strip()` / accepted as whitespace
by `float()`: the Unicode White_Space set plus `\x1c`-`\x1f`, given by
code point. -/
def pyIsSpace (c : Char) : Bool :=
  decide (c.toNat ∈ ([9, 10, 11, 12, 13, 28, 29, 30, 31, 32, 133, 160,
    5760, 8192, 8193, 8194, 8195, 8196, 8197, 8198, 8199, 8200, 8201,
    8202, 8232, 8233, 8239, 8287, 12288] : List ℕ))

/-- ASCII decimal digit test (the `\d` of the source's regexes). -/
def isDig (c : Char) : Bool :=
  decide (48 ≤ c.toNat ∧ c.toNat ≤ 57)

/-- Numeric value of an ASCII digit character. -/
def dval (c : Char) : ℕ := c.toNat - 48

/-- The ASCII character for a decimal digit. -/
def digitChar : ℕ → Char
  | 0 => '0' | 1 => '1' | 2 => '2' | 3 => '3' | 4 => '4'
  | 5 => '5' | 6 => '6' | 7 => '7' | 8 => '8' | 9 => '9'
  | _ => '*'

/-- Most-significant-first value of a list of decimal digit values. -/
def natValD (l : List ℕ) : ℕ := l.foldl (fun a d => 10 * a + d) 0

/-- Little-endian decimal digit values of `n`, fuel-driven so that the
kernel can evaluate it (agrees with `Nat.digits 10 n` once `n ≤ fuel`). -/
def digsRev : ℕ → ℕ → List ℕ
  | 0, _ => []
  | fuel + 1, n => if n = 0 then [] else n % 10 :: digsRev fuel (n / 10)

/-- Decimal digit characters of `n`, most significant first (Python's
rendering of a nonnegative integer). -/
def natDigs (n : ℕ) : List Char :=
  if n = 0 then ['0'] else ((digsRev n n).map digitChar).reverse

/-- Round `n / D` half to even (`D > 0`): the rounding of CPython's
`%.2f` applied to a nonnegative value. -/
def rneDiv (n D : ℕ) : ℕ :=
  let q := n / D
  let r := n % D
  if 2 * r < D then q
  else if D < 2 * r then q + 1
  else if q % 2 = 0 then q else q + 1

/-- `100 * (m * 10 ^ d)` rounded half to even: the integer printed by
`%.2f` (as cents). -/
def rne100 (m : ℕ) (d : ℤ) : ℕ :=
  match d + 2 with
  | .ofNat k => m * 10 ^ k
  | .negSucc k => rneDiv m (10 ^ (k + 1))

/-- A CPython float as produced by `float(string)`: infinities, or a
finite value as sign bit plus nonnegative decimal magnitude
`mant * 10 ^ dexp` (the sign bit is separate so that `-0.0` is
representable). -/
inductive PyF where
  | inf : Bool → PyF
  | finite : Bool → ℕ → ℤ → PyF
deriving Repr, DecidableEq

/-- Python unary minus on a float (flips the sign bit, also on zero). -/
def PyF.neg : PyF → PyF
  | .inf s => .inf (!s)
  | .finite s m d => .finite (!s) m d

/-- The largest finite IEEE-754 binary64 value, `(2 - 2^-52) * 2^1023`. -/
def maxFloatN : ℕ := 2 ^ 1024 - 2 ^ 971

/-- Decimal values at or above this round to `inf` under binary64
round-to-nearest-even. -/
def ovThreshN : ℕ := 2 ^ 1024 - 2 ^ 970

/-- `T ≤ m * 10 ^ d`, decided over ℕ. -/
def decValGE (m : ℕ) (d : ℤ) (T : ℕ) : Bool :=
  match d with
  | .ofNat k => decide (T ≤ m * 10 ^ k)
  | .negSucc k => decide (T * 10 ^ (k + 1) ≤ m)

/-- `T < m * 10 ^ d`, decided over ℕ. -/
def decValGT (m : ℕ) (d : ℤ) (T : ℕ) : Bool :=
  match d with
  | .ofNat k => decide (T < m * 10 ^ k)
  | .negSucc k => decide (T * 10 ^ (k + 1) < m)

/-- Group the reversal of a digit string into blocks of three, comma
separated: the effect, on a reversed integer part, of the source's
`re.sub(r'\B(?=(\d{3})+(?!\d))', ',', parts[0])` (the `\B` keeps a comma
from being inserted directly after a leading minus sign). -/
def g3go : List Char → List Char
  | a :: b :: c :: d :: t => a :: b :: c :: ',' :: g3go (d :: t)
  | l => l

/-- Insert thousands separators into a digit string. -/
def group3 (l : List Char) : List Char := (g3go l.reverse).reverse

/-- The two fractional digits printed by `%.2f`. -/
def twoDigits (m : ℕ) : List Char := [digitChar (m / 10), digitChar (m % 10)]

/-- `f"{num:.2f}"` followed by the source's thousands-separator insertion
into the integer part (`parts[0]`) and rejoin: the common tail of both the
scientific-notation branch and the main branch of
`format_nominal_to_international_format`. -/
def formatFloat2f : PyF → String
  | .inf s => if s then "-inf" else "inf"
  | .finite s m d =>
    let k := rne100 m d
    String.mk ((if s then ['-'] else []) ++
      group3 (natDigs (k / 100)) ++ '.' :: twoDigits (k % 100))

/-- Does the list start with an ASCII digit? -/
def headDig : List Char → Bool
  | d :: _ => isDig d
  | [] => false

/-- Does the list start with the character `c`? -/
def headIs (c : Char) : List Char → Bool
  | x :: _ => x == c
  | [] => false

/-- One digit-run of a Python float literal (digits with single
underscores strictly between digits), continuing after a first digit:
consumed digit values plus the unconsumed rest. -/
def takeDigitPartCont : List Char → (List ℕ × List Char)
  | [] => ([], [])
  | a :: t =>
    if isDig a then
      let p := takeDigitPartCont t
      (dval a :: p.1, p.2)
    else if a == '_' then
      match t with
      | b :: t₂ =>
        if isDig b then
          let p := takeDigitPartCont t₂
          (dval b :: p.1, p.2)
        else ([], a :: t)
      | [] => ([], [a])
    else ([], a :: t)

/-- A digit-run of a Python float literal (must begin with a digit; an
empty result means no digits were consumed). -/
def takeDigitPart : List Char → (List ℕ × List Char)
  | a :: t =>
    if isDig a then
      let p := takeDigitPartCont t
      (dval a :: p.1, p.2)
    else ([], a :: t)
  | [] => ([], [])

/-- Strip leading and trailing whitespace. -/
def trimWs (l : List Char) : List Char :=
  ((l.dropWhile pyIsSpace).reverse.dropWhile pyIsSpace).reverse

/-- Build the float from sign, mantissa digits, fraction length and
exponent, applying the binary64 overflow threshold and top-end rounding
(see the module comment). -/
def mkPyF (sgn : Bool) (ip fp : List ℕ) (ex : ℤ) : PyF :=
  let m := natValD (ip ++ fp)
  let d := ex - (fp.length : ℤ)
  if decValGE m d ovThreshN then PyF.inf sgn
  else if decValGT m d maxFloatN then PyF.finite sgn maxFloatN 0
  else PyF.finite sgn m d

/-- CPython `float(string)`: `none` is `ValueError`.  The `inf`/`nan`
word literals are not modelled: every call site either feeds a string
containing only digits, `.`, `,`, `-` (the standardized string of the
main branch) or requires the string to contain `e`/`E` (the scientific
branch), and no such string is one of those word literals. -/
def pyFloat (l : List Char) : Option PyF :=
  let l₁ := trimWs l
  let sgn : Bool := headIs '-' l₁
  let l₂ : List Char := if headIs '-' l₁ || headIs '+' l₁ then l₁.tail else l₁
  let ipr := takeDigitPart l₂
  let fpr : List ℕ × List Char :=
    if headIs '.' ipr.2 then takeDigitPart ipr.2.tail else ([], ipr.2)
  if ipr.1 = [] ∧ fpr.1 = [] then none
  else
    match fpr.2 with
    | [] => some (mkPyF sgn ipr.1 fpr.1 0)
    | c :: r =>
      if c == 'e' || c == 'E' then
        let esgn : Bool := headIs '-' r
        let r' : List Char := if headIs '-' r || headIs '+' r then r.tail else r
        let edr := takeDigitPart r'
        if edr.1 = [] then none
        else if edr.2 = [] then
          some (mkPyF sgn ipr.1 fpr.1
            (if esgn then -(natValD edr.1 : ℤ) else (natValD edr.1 : ℤ)))
        else none
      else none

/-- Characters kept by the source's `re.sub(r'[^\d.,-]', '', nominal)`. -/
def keepChar (c : Char) : Bool :=
  isDig c || c == '.' || c == ',' || c == '-'

/-- Does the string contain `e` or `E` (the source's
`'e' in nominal.lower() or 'E' in nominal`)? -/
def hasE (l : List Char) : Bool := l.any (fun c => c == 'e' || c == 'E')

/-- The `.*\.\d` / `.*,\d` tail of the two explicit locale patterns: some
gap of non-newline characters, then the separator `s2` followed by a
digit. -/
def gapSepD (s2 : Char) : List Char → Bool
  | [] => false
  | c :: t => ((c == s2) && headDig t) || (!(c == '\n') && gapSepD s2 t)

/-- Window test for `\d+ s1 \d{3} .* s2 \d` at the head of the list. -/
def winAt (s1 s2 : Char) : List Char → Bool
  | a :: b :: c :: d :: e :: t =>
    isDig a && (b == s1) && isDig c && isDig d && isDig e && gapSepD s2 t
  | _ => false

/-- `re.search` existence for `\d+ s1 \d{3} .* s2 \d+` (with `s1 = ','`,
`s2 = '.'` this is the source's `\d+,\d{3}.*\.\d+`, and symmetrically). -/
def searchPat (s1 s2 : Char) : List Char → Bool
  | [] => false
  | x :: t => winAt s1 s2 (x :: t) || searchPat s1 s2 t

/-- Window test for `\d+ sep \d{3}` at the head of the list. -/
def sep3At (sep : Char) : List Char → Bool
  | a :: b :: c :: d :: e :: _ =>
    isDig a && (b == sep) && isDig c && isDig d && isDig e
  | _ => false

/-- `re.search` existence for `\d+ sep \d{3}` (thousands-group evidence). -/
def hasSep3 (sep : Char) : List Char → Bool
  | [] => false
  | x :: t => sep3At sep (x :: t) || hasSep3 sep t

/-- `re.search` existence for `\d+ sep \d{1,2}$` (the string ends in a
digit, the separator, then one or two digits). -/
def endsSep12 (sep : Char) (l : List Char) : Bool :=
  match l.reverse with
  | a :: b :: c :: t =>
    (isDig a && (b == sep) && isDig c) ||
    (isDig a && isDig b && (c == sep) && headDig t)
  | _ => false

/-- Split at the first occurrence of `sep`: `l = pre ++ sep :: post` with
`sep ∉ pre`. -/
def splitAtFirst (sep : Char) : List Char → Option (List Char × List Char)
  | [] => none
  | c :: t =>
    if c = sep then some ([], t)
    else (splitAtFirst sep t).map (fun p => (c :: p.1, p.2))

/-- The source's multiple-decimal collapse: `cleaned[:last].replace(sep,
'') + cleaned[last:]` where `last` is the index of the final `sep`. -/
def collapseLast (sep : Char) (l : List Char) : List Char :=
  match splitAtFirst sep l.reverse with
  | none => l
  | some p => (p.2.reverse.filter (fun c => !(c == sep))) ++ sep :: p.1.reverse

/-- Scanning from the end of the string, is the first of `.`/`,` a `.`?
Equivalent to `last_period_index > last_comma_index` when both occur. -/
def revFirstDot : List Char → Bool
  | [] => false
  | c :: t => if c == '.' then true else if c == ',' then false else revFirstDot t

/-- `cleaned.rfind('.') > cleaned.rfind(',')` for a string containing
both separators. -/
def lastSepIsDot (l : List Char) : Bool := revFirstDot l.reverse

/-- The separator-disambiguation decision of lines 53-90 of the source:
`(using_period_as_decimal, using_comma_as_decimal)`.  The first two tests
run on the raw `nominal` string, the counting heuristics on `cleaned`. -/
def sepDecision (nominal cleaned : List Char) : Bool × Bool :=
  if searchPat ',' '.' nominal then (true, false)
  else if searchPat '.' ',' nominal then (false, true)
  else if 0 < cleaned.count '.' ∧ 0 < cleaned.count ',' then
    (lastSepIsDot cleaned, !lastSepIsDot cleaned)
  else if 0 < cleaned.count '.' then
    (if hasSep3 '.' cleaned && !endsSep12 '.' cleaned then (false, true)
     else (true, false))
  else if 0 < cleaned.count ',' then
    (if hasSep3 ',' cleaned && !endsSep12 ',' cleaned then (true, false)
     else (false, true))
  else (true, false)

/-- `NominalFormatter.format_nominal_to_international_format`, line by
line from src/utils/nominal_formatter.py. -/
def format_nominal_to_international_format (nominal : String) : String :=
  let l := nominal.data
  -- `if not nominal or nominal.strip() == '': return ''`
  if l.all pyIsSpace then ""
  else
    -- scientific notation: `float(nominal)` then the common format tail;
    -- ValueError falls through to the regular parsing below
    match (if hasE l then pyFloat l else none) with
    | some pf => formatFloat2f pf
    | none =>
      let cleaned0 := l.filter keepChar
      -- `is_negative = '-' in nominal`, possibly re-set when a leading
      -- `-` is stripped from `cleaned`
      let is_neg0 := l.contains '-'
      let cleaned := if headIs '-' cleaned0 then cleaned0.tail else cleaned0
      let is_negative := if headIs '-' cleaned0 then true else is_neg0
      let dec := sepDecision l cleaned
      let up := dec.1
      let uc := dec.2
      -- multiple-decimal collapse, keeping only the last separator
      let c₂ := if up && decide (1 < cleaned.count '.') then
          collapseLast '.' cleaned else cleaned
      let c₃ := if uc && decide (1 < c₂.count ',') then
          collapseLast ',' c₂ else c₂
      -- standardize to a dot-decimal string
      let standardized := if uc then
          (c₃.filter (fun c => !(c == '.'))).map
            (fun c => if c == ',' then '.' else c)
        else c₃.filter (fun c => !(c == ','))
      match pyFloat standardized with
      | none => "0.00"
      | some pf => formatFloat2f (if is_negative then PyF.neg pf else pf)

/-- The spec's name for the scalar operation. -/
def normalize_scalar : String → String := format_nominal_to_international_format

/-- Empty-or-whitespace-only test (`not nominal or nominal.strip() == ''`). -/
def isBlank (s : String) : Bool := s.data.all pyIsSpace

/-- Checker for the reversed integer part of the canonical pattern:
groups of three digits each followed by a comma, ending in one to three
digits (i.e. `\d{1,3}(,\d{3})*` read backwards). -/
def revGroups : List Char → Bool
  | [a] => isDig a
  | [a, b] => isDig a && isDig b
  | [a, b, c] => isDig a && isDig b && isDig c
  | a :: b :: c :: d :: t => isDig a && isDig b && isDig c && (d == ',') && revGroups t
  | [] => false

/-- Checker for `\d{1,3}(,\d{3})*\.\d{2}` (the unsigned canonical body). -/
def canonBody (l : List Char) : Bool :=
  match l.reverse with
  | a :: b :: c :: t => isDig a && isDig b && (c == '.') && revGroups t
  | _ => false

/-- Full-string checker for the spec's canonical output pattern
`-?\d{1,3}(,\d{3})*\.\d{2}`. -/
def isCanonical (s : String) : Bool :=
  match s.data with
  | c :: t => if c == '-' then canonBody t else canonBody (c :: t)
  | [] => false

/-! ## JSON-ish values and the multi-page merge -/

/-- The values appearing in a page result: Python strings, numbers
(`int`/`float`, idealized as `ℚ`), booleans, `None`, lists and dicts
(dicts as insertion-ordered association lists with unique keys). -/
inductive JVal where
  | str : String → JVal
  | num : ℚ → JVal
  | bool : Bool → JVal
  | null : JVal
  | arr : List JVal → JVal
  | obj : List (String × JVal) → JVal

/-- A page result / record: a Python dict. -/
abbrev Page := List (String × JVal)

/-- Dict lookup (`d[k]` / `k in d`); keys are unique, so first match. -/
def olookup (k : String) : Page → Option JVal
  | [] => none
  | (k', v) :: t => if k' = k then some v else olookup k t

/-- Dict assignment `d[k] = v`: overwrite in place, else append (Python
dicts preserve insertion order). -/
def oset (k : String) (v : JVal) : Page → Page
  | [] => [(k, v)]
  | (k', w) :: t => if k' = k then (k', v) :: t else (k', w) :: oset k v t

/-- Python truthiness of a value. -/
def pyTruthy : JVal → Bool
  | .str s => !(s == "")
  | .num q => decide (q ≠ 0)
  | .bool b => b
  | .null => false
  | .arr l => !l.isEmpty
  | .obj l => !l.isEmpty

/-- `isinstance(value, (int, float))` — in Python a `bool` is an `int`. -/
def isNumV : JVal → Bool
  | .num _ => true
  | .bool _ => true
  | _ => false

/-- Numeric value used in `+` (a `bool` adds as 0/1). -/
def toQ : JVal → ℚ
  | .num q => q
  | .bool b => if b then 1 else 0
  | _ => 0

/-- `list.extend(v)`: iterating a list yields its elements, a string its
one-character substrings, a dict its keys; numbers and booleans are not
iterable (`TypeError`).  (`None`/empty values never reach this point:
they are filtered out by the truthiness test.) -/
def extendVal : JVal → Except String (List JVal)
  | .arr l => .ok l
  | .str s => .ok (s.data.map (fun c => JVal.str (String.mk [c])))
  | .obj l => .ok (l.map (fun kv => JVal.str kv.1))
  | _ => .error "TypeError"

/-- The per-document-type collection merge loop: for each page, if the
field is present and truthy, extend the accumulator with its contents. -/
def collectExtend (f : String) : List Page → Except String (List JVal)
  | [] => .ok []
  | p :: ps =>
    match olookup f p with
    | some v =>
      if pyTruthy v then
        match extendVal v with
        | .ok l => (collectExtend f ps).map (fun r => l ++ r)
        | .error e => .error e
      else collectExtend f ps
    | none => collectExtend f ps

/-- One `for key, value in result['usage'].items()` pass over `acc =
total_usage`: numeric values add to `total_usage.get(key, 0)` (a
`TypeError` if the stored value is non-numeric), other values overwrite. -/
def usagePageFold : Page → List (String × JVal) → Except String Page
  | acc, [] => .ok acc
  | acc, (k, v) :: t =>
    if isNumV v then
      match olookup k acc with
      | none => usagePageFold (oset k (JVal.num (0 + toQ v)) acc) t
      | some w =>
        if isNumV w then usagePageFold (oset k (JVal.num (toQ w + toQ v)) acc) t
        else .error "TypeError"
    else usagePageFold (oset k v acc) t

/-- The usage-merge loop over all pages; a present but non-dict `usage`
has no `.items()` (`AttributeError`). -/
def usageFold : Page → List Page → Except String Page
  | acc, [] => .ok acc
  | acc, p :: ps =>
    match olookup "usage" p with
    | none => usageFold acc ps
    | some (JVal.obj u) =>
      match usagePageFold acc u with
      | .ok acc₂ => usageFold acc₂ ps
      | .error e => .error e
    | some _ => .error "AttributeError"

/-- `merged_result.get('document_type', 'unknown') == s`. -/
def dtIs (p : Page) (s : String) : Bool :=
  match (olookup "document_type" p).getD (JVal.str "unknown") with
  | .str t => t == s
  | _ => false

/-- `OCRService._merge_multi_page_results`, line by line from
src/services/ocr_service.py (`copy.deepcopy` is the identity on these
pure values; Python exceptions are `Except.error`). -/
def merge_multi_page_results (results : List Page) : Except String Page :=
  match results with
  | [] => .ok [("error", JVal.str "No results to merge")]
  | r₀ :: _ =>
    let merged := r₀
    let coll : Except String Page :=
      if dtIs merged "sales_invoice" && (olookup "sales_invoices" merged).isSome then
        (collectExtend "sales_invoices" results).map
          (fun l => oset "sales_invoices" (JVal.arr l) merged)
      else if dtIs merged "purchase_invoice" && (olookup "purchase_invoices" merged).isSome then
        (collectExtend "purchase_invoices" results).map
          (fun l => oset "purchase_invoices" (JVal.arr l) merged)
      else if dtIs merged "product" && (olookup "products" merged).isSome then
        (collectExtend "products" results).map
          (fun l => oset "products" (JVal.arr l) merged)
      else if dtIs merged "partner" && (olookup "partners" merged).isSome then
        (collectExtend "partners" results).map
          (fun l => oset "partners" (JVal.arr l) merged)
      else if (olookup "items" merged).isSome then
        (collectExtend "items" results).map
          (fun l => oset "items" (JVal.arr l) merged)
      else .ok merged
    match coll with
    | .error e => .error e
    | .ok m₁ =>
      match usageFold [] results with
      | .error e => .error e
      | .ok u => .ok (oset "usage" (JVal.obj u) m₁)

/-- The collection field the merge concatenates, as resolved by the
source's `if`/`elif` chain on the first page (`none`: no branch taken). -/
def collField (p : Page) : Option String :=
  if dtIs p "sales_invoice" && (olookup "sales_invoices" p).isSome then some "sales_invoices"
  else if dtIs p "purchase_invoice" && (olookup "purchase_invoices" p).isSome then some "purchase_invoices"
  else if dtIs p "product" && (olookup "products" p).isSome then some "products"
  else if dtIs p "partner" && (olookup "partners" p).isSome then some "partners"
  else if (olookup "items" p).isSome then some "items"
  else none

/-- Page-order concatenation of the collection field's contents (pages
where the field is absent or not a list contribute nothing). -/
def concatColl (f : String) (rs : List Page) : List JVal :=
  (rs.map (fun p => match olookup f p with
    | some (JVal.arr l) => l
    | _ => [])).flatten

/-- All values stored under key `k` across the pages' `usage` dicts, in
page order. -/
def usageVals (k : String) (rs : List Page) : List JVal :=
  (rs.map (fun p => match olookup "usage" p with
    | some (JVal.obj u) => (u.filter (fun kv => kv.1 == k)).map (fun kv => kv.2)
    | _ => [])).flatten

/-! ## format_all_nominal_fields -/

/-- The default `nominal_fields` list of `format_all_nominal_fields`. -/
def defaultNominalFields : List String :=
  ["price", "amount", "total", "subtotal", "tax", "discount",
   "grand_total", "shipping", "fee", "cost", "value", "rate",
   "balance", "payment", "due", "paid"]

/-- ASCII `str.lower`. -/
def lowerChar (c : Char) : Char :=
  if 65 ≤ c.toNat ∧ c.toNat ≤ 90 then Char.ofNat (c.toNat + 32) else c

/-- Is the first list a prefix of the second (over `==`)? -/
def leadsWith : List Char → List Char → Bool
  | [], _ => true
  | _ :: _, [] => false
  | a :: t₁, b :: t₂ => a == b && leadsWith t₁ t₂

/-- Python's `needle in hay` substring test. -/
def containsSub (needle : List Char) : List Char → Bool
  | [] => needle.isEmpty
  | c :: t => leadsWith needle (c :: t) || containsSub needle t

/-- `any(nominal_field in key.lower() for nominal_field in nominal_fields)`. -/
def kwMatch (kws : List String) (k : String) : Bool :=
  kws.any (fun kw => containsSub kw.data (k.data.map lowerChar))

mutual

/-- The recursive `process_item` of `format_all_nominal_fields`:
dictionaries are processed entry-wise, lists element-wise, anything else
is returned unchanged. -/
def process_item (kws : List String) : JVal → JVal
  | .obj l => .obj (processEntries kws l)
  | .arr l => .arr (processList kws l)
  | v => v

/-- The `for key, value in item.items()` loop body. -/
def processEntries (kws : List String) : List (String × JVal) → List (String × JVal)
  | [] => []
  | (k, v) :: t => (k, processValue kws k v) :: processEntries kws t

/-- One entry: nested structures recurse; a string under a matching key
is normalized; everything else is untouched. -/
def processValue (kws : List String) (k : String) : JVal → JVal
  | .obj l => .obj (processEntries kws l)
  | .arr l => .arr (processList kws l)
  | .str s => if kwMatch kws k then .str (normalize_scalar s) else .str s
  | v => v

/-- `[process_item(element) for element in item]`. -/
def processList (kws : List String) : List JVal → List JVal
  | [] => []
  | v :: t => process_item kws v :: processList kws t

end

/-- `NominalFormatter.format_all_nominal_fields` with the default
`nominal_fields` (the only form the spec and claims exercise): shallow
copy plus in-place recursion is pure-functionally the entry-wise
processing of the top-level dict. -/
def format_all_nominal_fields (data_dict : Page) : Page :=
  processEntries defaultNominalFields data_dict

/-- The spec's name for the record operation. -/
def normalize_record : Page → Page := format_all_nominal_fields

/-! ## Merge lemmas -/

/-- The collection field's value on a page is absent or a list. -/
def collOkB (f : String) (p : Page) : Bool :=
  match olookup f p with
  | none => true
  | some (JVal.arr _) => true
  | some _ => false

/-- The page's `usage` is absent, or a dict all of whose values are
numeric. -/
def usageOkNum (p : Page) : Bool :=
  match olookup "usage" p with
  | none => true
  | some (JVal.obj u) => u.all (fun kv => isNumV kv.2)
  | some _ => false

/-- All stored values of a usage accumulator are numeric. -/
def accAllNum (acc : Page) : Bool := acc.all (fun kv => isNumV kv.2)

theorem olookup_oset (k k' : String) (v : JVal) (p : Page) :
    olookup k (oset k' v p) = if k' = k then some v else olookup k p := by
  induction p with
  | nil => simp [oset, olookup]
  | cons hd t ih =>
    obtain ⟨k₀, w⟩ := hd
    by_cases h : k₀ = k'
    · subst h
      by_cases h2 : k₀ = k
      · subst h2; simp [oset, olookup]
      · simp [oset, olookup, h2]
    · by_cases h2 : k₀ = k
      · subst h2
        have : k' ≠ k₀ := fun hk => h hk.symm
        simp [oset, olookup, h, this]
      · simp [oset, olookup, h, h2, ih]

theorem concatColl_cons (f : String) (p : Page) (ps : List Page) :
    concatColl f (p :: ps) =
      (match olookup f p with
       | some (JVal.arr l) => l
       | _ => []) ++ concatColl f ps := by
  simp [concatColl]

theorem collectExtend_ok (f : String) :
    ∀ rs : List Page, (∀ p ∈ rs, collOkB f p = true) →
      collectExtend f rs = .ok (concatColl f rs) := by
  intro rs
  induction rs with
  | nil => intro _; simp [collectExtend, concatColl]
  | cons p ps ih =>
    intro h
    have hp : collOkB f p = true := h p (by simp)
    have hps : ∀ q ∈ ps, collOkB f q = true := fun q hq => h q (by simp [hq])
    rw [concatColl_cons]
    unfold collectExtend
    unfold collOkB at hp
    match hlk : olookup f p with
    | none => simp [hlk, ih hps]
    | some (JVal.arr l) =>
      by_cases hl : l.isEmpty
      · have : l = [] := List.isEmpty_iff.mp hl
        subst this
        simp [hlk, pyTruthy, ih hps]
      · simp [hlk, pyTruthy, hl, extendVal, ih hps, Except.map]
    | some (JVal.str s) => rw [hlk] at hp; simp at hp
    | some (JVal.num q) => rw [hlk] at hp; simp at hp
    | some (JVal.bool b) => rw [hlk] at hp; simp at hp
    | some JVal.null => rw [hlk] at hp; simp at hp
    | some (JVal.obj l) => rw [hlk] at hp; simp at hp

theorem accAllNum_oset (k : String) (v : JVal) (acc : Page)
    (hv : isNumV v = true) (ha : accAllNum acc = true) :
    accAllNum (oset k v acc) = true := by
  induction acc with
  | nil => simp [oset, accAllNum, hv]
  | cons hd t ih =>
    obtain ⟨k₀, w⟩ := hd
    simp only [accAllNum, List.all_cons, Bool.and_eq_true] at ha
    by_cases h : k₀ = k
    · simp only [oset, if_pos h, accAllNum, List.all_cons, Bool.and_eq_true]
      exact ⟨hv, ha.2⟩
    · simp only [oset, if_neg h, accAllNum, List.all_cons, Bool.and_eq_true]
      exact ⟨ha.1, ih ha.2⟩

theorem olookup_isNum (k : String) (acc : Page) (w : JVal)
    (ha : accAllNum acc = true) (hl : olookup k acc = some w) :
    isNumV w = true := by
  induction acc with
  | nil => simp [olookup] at hl
  | cons hd t ih =>
    obtain ⟨k₀, v₀⟩ := hd
    simp only [accAllNum, List.all_cons, Bool.and_eq_true] at ha
    by_cases h : k₀ = k
    · simp only [olookup, if_pos h, Option.some_inj] at hl
      subst hl; exact ha.1
    · simp only [olookup, if_neg h] at hl
      exact ih ha.2 hl

theorem usagePageFold_ok :
    ∀ (u : List (String × JVal)) (acc : Page),
      u.all (fun kv => isNumV kv.2) = true → accAllNum acc = true →
      ∃ a₂, usagePageFold acc u = .ok a₂ ∧ accAllNum a₂ = true := by
  intro u
  induction u with
  | nil => intro acc _ ha; exact ⟨acc, rfl, ha⟩
  | cons hd t ih =>
    intro acc hu ha
    obtain ⟨k, v⟩ := hd
    simp only [List.all_cons, Bool.and_eq_true] at hu
    obtain ⟨hv, ht⟩ := hu
    rcases hlk : olookup k acc with _ | w
    · obtain ⟨a₂, h1, h2⟩ := ih (oset k (JVal.num (toQ v)) acc) ht
        (accAllNum_oset _ _ _ rfl ha)
      exact ⟨a₂, by simp [usagePageFold, hv, hlk, h1], h2⟩
    · have hw := olookup_isNum k acc w ha hlk
      obtain ⟨a₂, h1, h2⟩ := ih (oset k (JVal.num (toQ w + toQ v)) acc) ht
        (accAllNum_oset _ _ _ rfl ha)
      exact ⟨a₂, by simp [usagePageFold, hv, hlk, hw, h1], h2⟩

theorem usageFold_ok :
    ∀ (ps : List Page) (acc : Page),
      (∀ p ∈ ps, usageOkNum p = true) → accAllNum acc = true →
      ∃ u, usageFold acc ps = .ok u := by
  intro ps
  induction ps with
  | nil => intro acc _ _; exact ⟨acc, rfl⟩
  | cons p t ih =>
    intro acc h ha
    have hp : usageOkNum p = true := h p (by simp)
    have ht : ∀ q ∈ t, usageOkNum q = true := fun q hq => h q (by simp [hq])
    unfold usageOkNum at hp
    match hlk : olookup "usage" p with
    | none =>
      obtain ⟨u, h1⟩ := ih acc ht ha
      exact ⟨u, by simp [usageFold, hlk, h1]⟩
    | some (JVal.obj u) =>
      rw [hlk] at hp
      obtain ⟨a₂, hfold, ha₂⟩ := usagePageFold_ok u acc hp ha
      obtain ⟨u', h1⟩ := ih a₂ ht ha₂
      exact ⟨u', by simp [usageFold, hlk, hfold, h1]⟩
    | some (JVal.str s) => rw [hlk] at hp; simp at hp
    | some (JVal.num q) => rw [hlk] at hp; simp at hp
    | some (JVal.bool b) => rw [hlk] at hp; simp at hp
    | some JVal.null => rw [hlk] at hp; simp at hp
    | some (JVal.arr l) => rw [hlk] at hp; simp at hp

theorem merge_cons_eq (r₀ : Page) (rest : List Page) :
    merge_multi_page_results (r₀ :: rest) =
      match (match collField r₀ with
             | some f => (collectExtend f (r₀ :: rest)).map
                 (fun l => oset f (JVal.arr l) r₀)
             | none => .ok r₀ : Except String Page) with
      | .error e => .error e
      | .ok m₁ =>
        match usageFold [] (r₀ :: rest) with
        | .error e => .error e
        | .ok u => .ok (oset "usage" (JVal.obj u) m₁) := by
  simp only [merge_multi_page_results, collField]
  split_ifs <;> rfl

theorem collField_cases (p : Page) (f : String) (h : collField p = some f) :
    f = "sales_invoices" ∨ f = "purchase_invoices" ∨ f = "products" ∨
    f = "partners" ∨ f = "items" := by
  unfold collField at h
  split_ifs at h <;> simp_all

/-- Core characterization of the merge when the collection chain resolves
to field `f`, pages carry list-valued collections and numeric usage. -/
theorem merge_coll_spec (r₀ : Page) (rest : List Page) (f : String)
    (hf : collField r₀ = some f)
    (hc : ∀ p ∈ r₀ :: rest, collOkB f p = true)
    (hu : ∀ p ∈ r₀ :: rest, usageOkNum p = true) :
    ∃ m u, merge_multi_page_results (r₀ :: rest) = .ok m ∧
      usageFold [] (r₀ :: rest) = .ok u ∧
      m = oset "usage" (JVal.obj u) (oset f (JVal.arr (concatColl f (r₀ :: rest))) r₀) ∧
      olookup f m = some (JVal.arr (concatColl f (r₀ :: rest))) ∧
      olookup "usage" m = some (JVal.obj u) ∧
      (∀ k, k ≠ f → k ≠ "usage" → olookup k m = olookup k r₀) := by
  obtain ⟨u, hufold⟩ := usageFold_ok (r₀ :: rest) [] hu rfl
  have hext := collectExtend_ok f (r₀ :: rest) hc
  have hfu : f ≠ "usage" := by
    rcases collField_cases _ _ hf with h | h | h | h | h <;> subst h <;> decide
  have hfu' : "usage" ≠ f := fun h => hfu h.symm
  refine ⟨_, u, ?_, hufold, rfl, ?_, ?_, ?_⟩
  · rw [merge_cons_eq, hf]
    simp [hext, hufold, Except.map]
  · rw [olookup_oset, olookup_oset]
    simp [hfu']
  · rw [olookup_oset]
    simp
  · intro k hk hku
    have h1 : "usage" ≠ k := fun h => hku h.symm
    have h2 : f ≠ k := fun h => hk h.symm
    rw [olookup_oset, olookup_oset]
    simp [h1, h2]

/-- The per-key view of the usage merge: fold one key's occurrence list
(numeric values add to the running value, `TypeError` when the stored
value is non-numeric, non-numeric values overwrite). -/
def uFoldOcc : Option JVal → List JVal → Except String (Option JVal)
  | cur, [] => .ok cur
  | cur, v :: t =>
    if isNumV v then
      match cur with
      | none => uFoldOcc (some (JVal.num (0 + toQ v))) t
      | some w =>
        if isNumV w then uFoldOcc (some (JVal.num (toQ w + toQ v))) t
        else .error "TypeError"
    else uFoldOcc (some v) t

/-- Sum of the numeric values of a list of occurrences. -/
def sumQ (vs : List JVal) : ℚ := (vs.map toQ).sum

theorem uFoldOcc_nil (cur : Option JVal) : uFoldOcc cur [] = .ok cur := rfl

theorem uFoldOcc_cons_num_none (v : JVal) (t : List JVal) (hv : isNumV v = true) :
    uFoldOcc none (v :: t) = uFoldOcc (some (JVal.num (0 + toQ v))) t := by
  simp [uFoldOcc, hv]

theorem uFoldOcc_cons_num_some (v w : JVal) (t : List JVal)
    (hv : isNumV v = true) (hw : isNumV w = true) :
    uFoldOcc (some w) (v :: t) = uFoldOcc (some (JVal.num (toQ w + toQ v))) t := by
  simp [uFoldOcc, hv, hw]

theorem uFoldOcc_cons_num_bad (v w : JVal) (t : List JVal)
    (hv : isNumV v = true) (hw : isNumV w = false) :
    uFoldOcc (some w) (v :: t) = .error "TypeError" := by
  simp [uFoldOcc, hv, hw]

theorem uFoldOcc_cons_nonnum (cur : Option JVal) (v : JVal) (t : List JVal)
    (hv : isNumV v = false) :
    uFoldOcc cur (v :: t) = uFoldOcc (some v) t := by
  simp [uFoldOcc, hv]

theorem usagePageFold_cons_num_none (acc : Page) (k : String) (v : JVal)
    (t : List (String × JVal)) (hv : isNumV v = true) (hlk : olookup k acc = none) :
    usagePageFold acc ((k, v) :: t) =
      usagePageFold (oset k (JVal.num (0 + toQ v)) acc) t := by
  simp [usagePageFold, hv, hlk]

theorem usagePageFold_cons_num_some (acc : Page) (k : String) (v w : JVal)
    (t : List (String × JVal)) (hv : isNumV v = true) (hw : isNumV w = true)
    (hlk : olookup k acc = some w) :
    usagePageFold acc ((k, v) :: t) =
      usagePageFold (oset k (JVal.num (toQ w + toQ v)) acc) t := by
  simp [usagePageFold, hv, hw, hlk]

theorem usagePageFold_cons_num_bad (acc : Page) (k : String) (v w : JVal)
    (t : List (String × JVal)) (hv : isNumV v = true) (hw : isNumV w = false)
    (hlk : olookup k acc = some w) :
    usagePageFold acc ((k, v) :: t) = .error "TypeError" := by
  simp [usagePageFold, hv, hw, hlk]

theorem usagePageFold_cons_nonnum (acc : Page) (k : String) (v : JVal)
    (t : List (String × JVal)) (hv : isNumV v = false) :
    usagePageFold acc ((k, v) :: t) = usagePageFold (oset k v acc) t := by
  simp [usagePageFold, hv]

theorem uFoldOcc_append (l₁ l₂ : List JVal) :
    ∀ cur c₁, uFoldOcc cur l₁ = .ok c₁ →
      uFoldOcc cur (l₁ ++ l₂) = uFoldOcc c₁ l₂ := by
  induction l₁ with
  | nil =>
    intro cur c₁ h
    rw [uFoldOcc_nil] at h
    cases h; rfl
  | cons v t ih =>
    intro cur c₁ h
    by_cases hv : isNumV v = true
    · rcases cur with _ | w
      · rw [uFoldOcc_cons_num_none _ _ hv] at h
        rw [List.cons_append, uFoldOcc_cons_num_none _ _ hv]
        exact ih _ _ h
      · by_cases hw : isNumV w = true
        · rw [uFoldOcc_cons_num_some _ _ _ hv hw] at h
          rw [List.cons_append, uFoldOcc_cons_num_some _ _ _ hv hw]
          exact ih _ _ h
        · rw [uFoldOcc_cons_num_bad _ _ _ hv (by simpa using hw)] at h
          simp at h
    · rw [uFoldOcc_cons_nonnum _ _ _ (by simpa using hv)] at h
      rw [List.cons_append, uFoldOcc_cons_nonnum _ _ _ (by simpa using hv)]
      exact ih _ _ h

theorem usagePageFold_lookup (k : String) :
    ∀ (u : List (String × JVal)) (acc acc₂ : Page),
      usagePageFold acc u = .ok acc₂ →
      uFoldOcc (olookup k acc) ((u.filter (fun kv => kv.1 == k)).map (fun kv => kv.2)) =
        .ok (olookup k acc₂) := by
  intro u
  induction u with
  | nil =>
    intro acc acc₂ h
    simp only [usagePageFold] at h
    cases h
    rfl
  | cons hd t ih =>
    intro acc acc₂ h
    obtain ⟨k₀, v⟩ := hd
    by_cases hv : isNumV v = true
    · rcases hlk : olookup k₀ acc with _ | w
      · rw [usagePageFold_cons_num_none _ _ _ _ hv hlk] at h
        have hrec := ih _ _ h
        rw [olookup_oset] at hrec
        by_cases hk : k₀ = k
        · subst hk
          simp only [if_pos rfl, if_true] at hrec
          simp only [List.filter_cons, beq_self_eq_true, if_pos, List.map_cons]
          rw [hlk, uFoldOcc_cons_num_none _ _ hv]
          exact hrec
        · simp only [if_neg hk] at hrec
          simpa [List.filter_cons, hk] using hrec
      · by_cases hw : isNumV w = true
        · rw [usagePageFold_cons_num_some _ _ _ _ _ hv hw hlk] at h
          have hrec := ih _ _ h
          rw [olookup_oset] at hrec
          by_cases hk : k₀ = k
          · subst hk
            simp only [if_pos rfl, if_true] at hrec
            simp only [List.filter_cons, beq_self_eq_true, if_pos, List.map_cons]
            rw [hlk, uFoldOcc_cons_num_some _ _ _ hv hw]
            exact hrec
          · simp only [if_neg hk] at hrec
            simpa [List.filter_cons, hk] using hrec
        · rw [usagePageFold_cons_num_bad _ _ _ _ _ hv (by simpa using hw) hlk] at h
          simp at h
    · rw [usagePageFold_cons_nonnum _ _ _ _ (by simpa using hv)] at h
      have hrec := ih _ _ h
      rw [olookup_oset] at hrec
      by_cases hk : k₀ = k
      · subst hk
        simp only [if_pos rfl, if_true] at hrec
        simp only [List.filter_cons, beq_self_eq_true, if_pos, List.map_cons]
        rw [uFoldOcc_cons_nonnum _ _ _ (by simpa using hv)]
        exact hrec
      · simp only [if_neg hk] at hrec
        simpa [List.filter_cons, hk] using hrec

theorem usageFold_cons_none (acc : Page) (p : Page) (t : List Page)
    (hlk : olookup "usage" p = none) :
    usageFold acc (p :: t) = usageFold acc t := by
  simp [usageFold, hlk]

theorem usageFold_cons_obj (acc : Page) (p : Page) (t : List Page)
    (w : List (String × JVal)) (hlk : olookup "usage" p = some (JVal.obj w)) :
    usageFold acc (p :: t) =
      match usagePageFold acc w with
      | .ok acc₂ => usageFold acc₂ t
      | .error e => .error e := by
  simp [usageFold, hlk]

theorem usageFold_lookup (k : String) :
    ∀ (ps : List Page) (acc u : Page),
      usageFold acc ps = .ok u →
      uFoldOcc (olookup k acc) (usageVals k ps) = .ok (olookup k u) := by
  intro ps
  induction ps with
  | nil =>
    intro acc u h
    simp only [usageFold] at h
    cases h
    rfl
  | cons p t ih =>
    intro acc u h
    match hlk : olookup "usage" p with
    | none =>
      rw [usageFold_cons_none _ _ _ hlk] at h
      have : usageVals k (p :: t) = usageVals k t := by
        simp [usageVals, hlk]
      rw [this]
      exact ih _ _ h
    | some (JVal.obj w) =>
      rw [usageFold_cons_obj _ _ _ _ hlk] at h
      rcases hpf : usagePageFold acc w with e | acc₂
      · rw [hpf] at h; simp at h
      · rw [hpf] at h
        have hvals : usageVals k (p :: t) =
            ((w.filter (fun kv => kv.1 == k)).map (fun kv => kv.2)) ++ usageVals k t := by
          simp [usageVals, hlk]
        rw [hvals]
        have h1 := usagePageFold_lookup k w acc acc₂ hpf
        rw [uFoldOcc_append _ _ _ _ h1]
        exact ih _ _ h
    | some (JVal.str s) => simp [usageFold, hlk] at h
    | some (JVal.num q) => simp [usageFold, hlk] at h
    | some (JVal.bool b) => simp [usageFold, hlk] at h
    | some JVal.null => simp [usageFold, hlk] at h
    | some (JVal.arr l) => simp [usageFold, hlk] at h

theorem uFoldOcc_allnum :
    ∀ (t : List JVal) (q : ℚ), t.all isNumV = true →
      uFoldOcc (some (JVal.num q)) t = .ok (some (JVal.num (q + sumQ t))) := by
  intro t
  induction t with
  | nil => intro q _; simp [uFoldOcc, sumQ]
  | cons v t ih =>
    intro q h
    simp only [List.all_cons, Bool.and_eq_true] at h
    rw [uFoldOcc_cons_num_some v (JVal.num q) t h.1 rfl]
    rw [ih _ h.2]
    have : toQ (JVal.num q) + toQ v + sumQ t = q + sumQ (v :: t) := by
      simp [toQ, sumQ, add_assoc]
    rw [this]

theorem uFoldOcc_all_nonnum :
    ∀ (vs : List JVal) (cur : Option JVal) (v : JVal),
      vs.getLast? = some v → vs.all (fun w => !isNumV w) = true →
      uFoldOcc cur vs = .ok (some v) := by
  intro vs
  induction vs with
  | nil => intro cur v h; simp at h
  | cons v₀ t ih =>
    intro cur v hlast hall
    simp only [List.all_cons, Bool.and_eq_true, Bool.not_eq_true'] at hall
    rw [uFoldOcc_cons_nonnum _ _ _ hall.1]
    rcases t with _ | ⟨v₁, t'⟩
    · simp only [List.getLast?_singleton, Option.some_inj] at hlast
      subst hlast; rfl
    · rw [List.getLast?_cons_cons] at hlast
      exact ih _ _ hlast (by simpa using hall.2)

theorem merge_ok_decomp (r₀ : Page) (rest : List Page) (m : Page)
    (hm : merge_multi_page_results (r₀ :: rest) = .ok m) :
    ∃ m₁ u, usageFold [] (r₀ :: rest) = .ok u ∧
      m = oset "usage" (JVal.obj u) m₁ := by
  rw [merge_cons_eq] at hm
  rcases hco : (match collField r₀ with
      | some f => (collectExtend f (r₀ :: rest)).map
          (fun l => oset f (JVal.arr l) r₀)
      | none => .ok r₀ : Except String Page) with e | m₁
  · rw [hco] at hm; simp at hm
  · rw [hco] at hm
    rcases huf : usageFold [] (r₀ :: rest) with e | u
    · rw [huf] at hm; simp at hm
    · rw [huf] at hm
      simp only [Except.ok.injEq] at hm
      exact ⟨m₁, u, rfl, hm.symm⟩

/-- Claim C10: merging an empty list of page results does not raise; it
returns the error-marker record. -/
theorem c10_empty_merge :
    merge_multi_page_results [] =
      .ok [("error", JVal.str "No results to merge")] := rfl

/-- Claim C2: for a non-empty page list whose first page resolves the
collection chain to field `f`, with list-valued collections and numeric
usage dicts, the merge succeeds; the merged record carries the page-order
concatenation of the `f` contents, and every other field except `usage`
is taken verbatim from page 1. -/
theorem c2_merge_concat (rs : List Page) (r₀ : Page) (rest : List Page)
    (f : String) (hrs : rs = r₀ :: rest) (hf : collField r₀ = some f)
    (hc : ∀ p ∈ rs, collOkB f p = true)
    (hu : ∀ p ∈ rs, usageOkNum p = true) :
    ∃ m, merge_multi_page_results rs = .ok m ∧
      olookup f m = some (JVal.arr (concatColl f rs)) ∧
      (∀ k, k ≠ f → k ≠ "usage" → olookup k m = olookup k r₀) := by
  subst hrs
  obtain ⟨m, u, h1, _, _, h4, _, h6⟩ := merge_coll_spec r₀ rest f hf hc hu
  exact ⟨m, h1, h4, h6⟩

/-- Claim C2 witness: the two-invoice-page example of the spec. -/
theorem c2_merge_concat_witness :
    ∃ m, merge_multi_page_results
        [[("document_type", JVal.str "invoice"),
          ("items", JVal.arr [JVal.obj [("name", JVal.str "A")]]),
          ("usage", JVal.obj [("tokens", JVal.num 10)])],
         [("document_type", JVal.str "invoice"),
          ("items", JVal.arr [JVal.obj [("name", JVal.str "B")]]),
          ("usage", JVal.obj [("tokens", JVal.num 15)])]] = .ok m ∧
      olookup "items" m =
        some (JVal.arr [JVal.obj [("name", JVal.str "A")],
                        JVal.obj [("name", JVal.str "B")]]) ∧
      olookup "document_type" m = some (JVal.str "invoice") := by
  obtain ⟨m, h1, h2, h3⟩ := c2_merge_concat
    [[("document_type", JVal.str "invoice"),
      ("items", JVal.arr [JVal.obj [("name", JVal.str "A")]]),
      ("usage", JVal.obj [("tokens", JVal.num 10)])],
     [("document_type", JVal.str "invoice"),
      ("items", JVal.arr [JVal.obj [("name", JVal.str "B")]]),
      ("usage", JVal.obj [("tokens", JVal.num 15)])]]
    [("document_type", JVal.str "invoice"),
     ("items", JVal.arr [JVal.obj [("name", JVal.str "A")]]),
     ("usage", JVal.obj [("tokens", JVal.num 10)])]
    [[("document_type", JVal.str "invoice"),
      ("items", JVal.arr [JVal.obj [("name", JVal.str "B")]]),
      ("usage", JVal.obj [("tokens", JVal.num 15)])]]
    "items" rfl (by decide) (by decide) (by decide)
  refine ⟨m, h1, ?_, ?_⟩
  · exact h2
  · rw [h3 "document_type" (by decide) (by decide)]
    rfl

/-- Claim C4 (amended): in the merged `usage` record, a key all of whose
occurrences are numeric is mapped to the sum of those occurrences, and
a key all of whose occurrences are non-numeric is mapped to its
last-seen value. -/
theorem c4_usage_merge (rs : List Page) (r₀ : Page) (rest : List Page)
    (m : Page) (hrs : rs = r₀ :: rest)
    (hm : merge_multi_page_results rs = .ok m) :
    ∃ u : List (String × JVal), olookup "usage" m = some (JVal.obj u) ∧
      ∀ k : String,
        (usageVals k rs ≠ [] → (usageVals k rs).all isNumV = true →
          olookup k u = some (JVal.num (sumQ (usageVals k rs)))) ∧
        ((usageVals k rs).all (fun v => !isNumV v) = true →
          olookup k u = (usageVals k rs).getLast?) := by
  subst hrs
  obtain ⟨m₁, u, huf, hmeq⟩ := merge_ok_decomp r₀ rest m hm
  subst hmeq
  refine ⟨u, by rw [olookup_oset]; simp, ?_⟩
  intro k
  have hkey := usageFold_lookup k (r₀ :: rest) [] u huf
  rw [show olookup k ([] : Page) = none from rfl] at hkey
  constructor
  · intro hne hall
    rcases hvs : usageVals k (r₀ :: rest) with _ | ⟨v, t⟩
    · exact absurd hvs hne
    · rw [hvs] at hkey hall
      simp only [List.all_cons, Bool.and_eq_true] at hall
      rw [uFoldOcc_cons_num_none _ _ hall.1, uFoldOcc_allnum _ _ hall.2] at hkey
      simp only [Except.ok.injEq] at hkey
      rw [← hkey]
      simp [sumQ]
  · intro hall
    rcases hvs : usageVals k (r₀ :: rest) with _ | ⟨v, t⟩
    · rw [hvs] at hkey
      rw [uFoldOcc_nil] at hkey
      simp only [Except.ok.injEq] at hkey
      rw [← hkey]
      rfl
    · rw [hvs] at hkey hall
      rcases hgl : (v :: t).getLast? with _ | w
      · simp at hgl
      · rw [uFoldOcc_all_nonnum _ _ _ hgl hall] at hkey
        simp only [Except.ok.injEq] at hkey
        rw [← hkey]

/-- Claim C4 witness: two pages with numeric `tokens` counters sum to 25. -/
theorem c4_usage_merge_witness :
    ∃ u : List (String × JVal),
      olookup "usage" [("usage", JVal.obj [("tokens", JVal.num (0 + 10 + 15))])] =
        some (JVal.obj u) ∧
      olookup "tokens" u = some (JVal.num 25) := by
  obtain ⟨u, h1, h2⟩ := c4_usage_merge
    [[("usage", JVal.obj [("tokens", JVal.num 10)])],
     [("usage", JVal.obj [("tokens", JVal.num 15)])]]
    [("usage", JVal.obj [("tokens", JVal.num 10)])]
    [[("usage", JVal.obj [("tokens", JVal.num 15)])]]
    [("usage", JVal.obj [("tokens", JVal.num (0 + 10 + 15))])] rfl rfl
  refine ⟨u, h1, ?_⟩
  have h3 := (h2 "tokens").1 (by
      rw [show usageVals "tokens"
        [[("usage", JVal.obj [("tokens", JVal.num 10)])],
         [("usage", JVal.obj [("tokens", JVal.num 15)])]] =
        [JVal.num 10, JVal.num 15] from rfl]
      exact List.cons_ne_nil _ _) (by decide)
  rw [h3]
  norm_num [sumQ, toQ, usageVals, olookup]

/-- Claim C4 counterexample: a key numeric on page 1 and a string on
page 2 merges to the string (last-wins), not to the sum of its numeric
occurrences. -/
theorem c4_usage_merge_counterexample :
    merge_multi_page_results
        [[("usage", JVal.obj [("tokens", JVal.num 5)])],
         [("usage", JVal.obj [("tokens", JVal.str "x")])]] =
      .ok [("usage", JVal.obj [("tokens", JVal.str "x")])] ∧
    JVal.str "x" ≠ JVal.num 5 :=
  ⟨rfl, fun h => JVal.noConfusion h⟩

/-- Claim C5 (amended): the concatenated collection field is determined
by the first page's `document_type` together with the presence of the
corresponding field on the first page; `partner` with a `partners` key
concatenates `partners`, and with the four recognized types ruled out
the merge falls back to `items` when page 1 has an `items` key. -/
theorem c5_collection_field :
    (∀ (r₀ : Page) (rest : List Page),
      dtIs r₀ "partner" = true → (olookup "partners" r₀).isSome = true →
      (∀ p ∈ r₀ :: rest, collOkB "partners" p = true) →
      (∀ p ∈ r₀ :: rest, usageOkNum p = true) →
      ∃ m, merge_multi_page_results (r₀ :: rest) = .ok m ∧
        olookup "partners" m =
          some (JVal.arr (concatColl "partners" (r₀ :: rest)))) ∧
    (∀ (r₀ : Page) (rest : List Page),
      dtIs r₀ "sales_invoice" = false → dtIs r₀ "purchase_invoice" = false →
      dtIs r₀ "product" = false → dtIs r₀ "partner" = false →
      (olookup "items" r₀).isSome = true →
      (∀ p ∈ r₀ :: rest, collOkB "items" p = true) →
      (∀ p ∈ r₀ :: rest, usageOkNum p = true) →
      ∃ m, merge_multi_page_results (r₀ :: rest) = .ok m ∧
        olookup "items" m =
          some (JVal.arr (concatColl "items" (r₀ :: rest)))) := by
  constructor
  · intro r₀ rest hdt hpres hc hu
    have hne : ∀ s : String, s ≠ "partner" → dtIs r₀ s = false := by
      intro s hs
      cases hd : dtIs r₀ s
      · rfl
      · exfalso
        unfold dtIs at hd hdt
        rcases hv : (olookup "document_type" r₀).getD (JVal.str "unknown") with
          t | q | b | _ | l | l
        all_goals rw [hv] at hd hdt
        · rw [beq_iff_eq] at hd hdt
          exact hs (hd ▸ hdt)
        all_goals simp at hdt
    have hcf : collField r₀ = some "partners" := by
      unfold collField
      rw [hne "sales_invoice" (by decide), hne "purchase_invoice" (by decide),
        hne "product" (by decide), hdt, hpres]
      simp
    obtain ⟨m, u, h1, _, _, h4, _, _⟩ := merge_coll_spec r₀ rest "partners" hcf hc hu
    exact ⟨m, h1, h4⟩
  · intro r₀ rest h1 h2 h3 h4 hpres hc hu
    have hcf : collField r₀ = some "items" := by
      unfold collField
      rw [h1, h2, h3, h4, hpres]
      simp
    obtain ⟨m, u, hm1, _, _, hm4, _, _⟩ := merge_coll_spec r₀ rest "items" hcf hc hu
    exact ⟨m, hm1, hm4⟩

/-- Claim C5 witness: a partner document with a `partners` key on page 1
concatenates `partners`. -/
theorem c5_collection_field_witness :
    ∃ m, merge_multi_page_results
        [[("document_type", JVal.str "partner"),
          ("partners", JVal.arr [JVal.str "X"])],
         [("partners", JVal.arr [JVal.str "Y"])]] = .ok m ∧
      olookup "partners" m = some (JVal.arr [JVal.str "X", JVal.str "Y"]) := by
  obtain ⟨m, h1, h2⟩ := c5_collection_field.1
    [("document_type", JVal.str "partner"), ("partners", JVal.arr [JVal.str "X"])]
    [[("partners", JVal.arr [JVal.str "Y"])]]
    (by decide) (by decide) (by decide) (by decide)
  exact ⟨m, h1, h2⟩

/-- Claim C5 counterexample: `document_type = "partner"` but no
`partners` key on page 1 — the merge concatenates `items` instead, so
the collection field is not determined solely by `document_type`. -/
theorem c5_collection_field_counterexample :
    dtIs [("document_type", JVal.str "partner"),
          ("items", JVal.arr [JVal.str "A"])] "partner" = true ∧
    merge_multi_page_results
        [[("document_type", JVal.str "partner"),
          ("items", JVal.arr [JVal.str "A"])],
         [("partners", JVal.arr [JVal.str "B"]),
          ("items", JVal.arr [JVal.str "C"])]] =
      .ok [("document_type", JVal.str "partner"),
           ("items", JVal.arr [JVal.str "A", JVal.str "C"]),
           ("usage", JVal.obj [])] :=
  ⟨rfl, rfl⟩

/-- Claim C6 (amended): the merge does not raise on benign inputs — and
in particular a page that is solely an error marker contributes nothing
but does not abort the merge, page 1's items surviving unmodified.  (The
`TypeError` of the counterexample is the one exception the code allows.) -/
theorem c6_no_raise :
    (∀ (r₀ : Page) (rest : List Page),
      (∀ p ∈ r₀ :: rest, usageOkNum p = true) →
      (∀ f, collField r₀ = some f → ∀ p ∈ r₀ :: rest, collOkB f p = true) →
      ∃ m, merge_multi_page_results (r₀ :: rest) = .ok m) ∧
    (∀ (p₁ : Page) (e : String) (l : List JVal),
      usageOkNum p₁ = true →
      collField p₁ = some "items" →
      olookup "items" p₁ = some (JVal.arr l) →
      ∃ m, merge_multi_page_results [p₁, [("error", JVal.str e)]] = .ok m ∧
        olookup "items" m = some (JVal.arr l)) := by
  constructor
  · intro r₀ rest hu hc
    rcases hcf : collField r₀ with _ | f
    · obtain ⟨u, hu'⟩ := usageFold_ok (r₀ :: rest) [] hu rfl
      refine ⟨oset "usage" (JVal.obj u) r₀, ?_⟩
      rw [merge_cons_eq, hcf]
      simp [hu']
    · obtain ⟨m, u, h1, _⟩ := merge_coll_spec r₀ rest f hcf (hc f hcf) hu
      exact ⟨m, h1⟩
  · intro p₁ e l hu hcf hitems
    have hc : ∀ p ∈ [p₁, [("error", JVal.str e)]], collOkB "items" p = true := by
      intro p hp
      simp only [List.mem_cons, List.mem_singleton, List.not_mem_nil,
        or_false] at hp
      rcases hp with h | h
      · subst h; simp [collOkB, hitems]
      · subst h
        have : olookup "items" [("error", JVal.str e)] = none := by
          simp [olookup]
        simp [collOkB, this]
    have hus : ∀ p ∈ [p₁, [("error", JVal.str e)]], usageOkNum p = true := by
      intro p hp
      simp only [List.mem_cons, List.mem_singleton, List.not_mem_nil,
        or_false] at hp
      rcases hp with h | h
      · subst h; exact hu
      · subst h
        have : olookup "usage" [("error", JVal.str e)] = none := by
          simp [olookup]
        simp [usageOkNum, this]
    obtain ⟨m, u, h1, _, _, h4, _, _⟩ :=
      merge_coll_spec p₁ [[("error", JVal.str e)]] "items" hcf hc hus
    refine ⟨m, h1, ?_⟩
    rw [h4]
    have : concatColl "items" [p₁, [("error", JVal.str e)]] = l := by
      rw [concatColl_cons, hitems]
      have : olookup "items" [("error", JVal.str e)] = none := by
        simp [olookup]
      simp [concatColl, this]
    rw [this]

/-- Claim C6 witness: page 2 an error marker, page 1's items survive. -/
theorem c6_no_raise_witness :
    ∃ m, merge_multi_page_results
        [[("document_type", JVal.str "invoice"),
          ("items", JVal.arr [JVal.obj [("name", JVal.str "A")]])],
         [("error", JVal.str "parse failure")]] = .ok m ∧
      olookup "items" m =
        some (JVal.arr [JVal.obj [("name", JVal.str "A")]]) := by
  obtain ⟨m, h1, h2⟩ := c6_no_raise.2
    [("document_type", JVal.str "invoice"),
     ("items", JVal.arr [JVal.obj [("name", JVal.str "A")]])]
    "parse failure" [JVal.obj [("name", JVal.str "A")]]
    (by decide) (by decide) rfl
  exact ⟨m, h1, h2⟩

/-- Claim C6 counterexample: a usage key that is a string on page 1 and
a number on page 2 makes the merge raise `TypeError` — a data-shape
problem that does raise. -/
theorem c6_no_raise_counterexample :
    merge_multi_page_results
        [[("usage", JVal.obj [("id", JVal.str "x")])],
         [("usage", JVal.obj [("id", JVal.num 5)])]] =
      .error "TypeError" := rfl

/-- Claim C7: both locale conventions yield the same canonical rendering,
and `-1234.5` gains its padding zero and thousands separator. -/
theorem c7_locale_normalization :
    normalize_scalar "1.234,56" = "1,234.56" ∧
    normalize_scalar "1,234.56" = "1,234.56" ∧
    normalize_scalar "-1234.5" = "-1,234.50" := by
  refine ⟨?_, ?_, ?_⟩ <;> decide

theorem pyFloat_of_all_space (l : List Char) (h : l.all pyIsSpace = true) :
    pyFloat l = none := by
  have h1 : l.dropWhile pyIsSpace = [] := by
    rw [List.dropWhile_eq_nil_iff]
    intro x hx
    exact (List.all_eq_true.mp h) x hx
  have h2 : trimWs l = [] := by
    simp [trimWs, h1]
  simp [pyFloat, h2, headIs, takeDigitPart]

/-- Claim C8: an input containing `e`/`E` that parses as a float is
converted directly by the scientific-notation branch, bypassing the
separator disambiguation. -/
theorem c8_scientific_bypass (s : String) (pf : PyF)
    (hE : hasE s.data = true) (hP : pyFloat s.data = some pf) :
    normalize_scalar s = formatFloat2f pf := by
  have hb : s.data.all pyIsSpace = false := by
    cases hall : s.data.all pyIsSpace
    · rfl
    · rw [pyFloat_of_all_space _ hall] at hP
      cases hP
  simp [normalize_scalar, format_nominal_to_international_format, hb, hE, hP]

/-- Claim C8 witness: `1.5e3` goes through the scientific branch to
`1,500.00`. -/
theorem c8_scientific_bypass_witness : normalize_scalar "1.5e3" = "1,500.00" :=
  (c8_scientific_bypass "1.5e3" (PyF.finite false 15 2) (by decide)
    (by decide)).trans (by decide)

mutual

/-- Spec-side relation (written from the claim's words) between a value
occurring as a list element and its normalized form: the structure has
the same shape, containers are recursed into, and every leaf is
unchanged (list elements have no key, so no string is normalized at this
level). -/
inductive NormSpecItem : JVal → JVal → Prop where
  | str (s : String) : NormSpecItem (.str s) (.str s)
  | num (q : ℚ) : NormSpecItem (.num q) (.num q)
  | bool (b : Bool) : NormSpecItem (.bool b) (.bool b)
  | null : NormSpecItem .null .null
  | obj (l l' : List (String × JVal)) :
      NormSpecEntries l l' → NormSpecItem (.obj l) (.obj l')
  | arr (l l' : List JVal) :
      NormSpecList l l' → NormSpecItem (.arr l) (.arr l')

/-- Spec-side relation between a value stored under key `k` and its
normalized form: a string under a keyword-matching key is replaced by
`normalize_scalar` of it, a string under a non-matching key and every
other leaf are unchanged, and containers are recursed into at every
nesting depth. -/
inductive NormSpecVal : String → JVal → JVal → Prop where
  | strMatch (k : String) (s : String) :
      kwMatch defaultNominalFields k = true →
      NormSpecVal k (.str s) (.str (normalize_scalar s))
  | strNoMatch (k : String) (s : String) :
      kwMatch defaultNominalFields k = false →
      NormSpecVal k (.str s) (.str s)
  | num (k : String) (q : ℚ) : NormSpecVal k (.num q) (.num q)
  | bool (k : String) (b : Bool) : NormSpecVal k (.bool b) (.bool b)
  | null (k : String) : NormSpecVal k .null .null
  | obj (k : String) (l l' : List (String × JVal)) :
      NormSpecEntries l l' → NormSpecVal k (.obj l) (.obj l')
  | arr (k : String) (l l' : List JVal) :
      NormSpecList l l' → NormSpecVal k (.arr l) (.arr l')

/-- Spec-side relation between a dict's entry list and its normalized
form: no keys are added, removed, or reordered; each value is related to
its image under `NormSpecVal` at its own key. -/
inductive NormSpecEntries :
    List (String × JVal) → List (String × JVal) → Prop where
  | nil : NormSpecEntries [] []
  | cons (k : String) (v v' : JVal) (t t' : List (String × JVal)) :
      NormSpecVal k v v' → NormSpecEntries t t' →
      NormSpecEntries ((k, v) :: t) ((k, v') :: t')

/-- Spec-side relation between a list and its normalized form: same
length, elementwise `NormSpecItem`. -/
inductive NormSpecList : List JVal → List JVal → Prop where
  | nil : NormSpecList [] []
  | cons (v v' : JVal) (t t' : List JVal) :
      NormSpecItem v v' → NormSpecList t t' →
      NormSpecList (v :: t) (v' :: t')

end

theorem processSpec_all :
    ∀ n : ℕ,
      (∀ v : JVal, sizeOf v ≤ n →
        NormSpecItem v (process_item defaultNominalFields v)) ∧
      (∀ (k : String) (v : JVal), sizeOf v ≤ n →
        NormSpecVal k v (processValue defaultNominalFields k v)) ∧
      (∀ l : List (String × JVal), sizeOf l ≤ n →
        NormSpecEntries l (processEntries defaultNominalFields l)) ∧
      (∀ l : List JVal, sizeOf l ≤ n →
        NormSpecList l (processList defaultNominalFields l)) := by
  intro n
  induction n using Nat.strong_induction_on with
  | _ n ih =>
    have entries : ∀ l : List (String × JVal), sizeOf l ≤ n →
        NormSpecEntries l (processEntries defaultNominalFields l) := by
      intro l hl
      match l with
      | [] => exact NormSpecEntries.nil
      | (k, v) :: t =>
        have hsz : sizeOf ((k, v) :: t) = 1 + (1 + sizeOf k + sizeOf v) + sizeOf t := by
          simp
        have hv : sizeOf v < n := by omega
        have ht : sizeOf t < n := by omega
        rw [show processEntries defaultNominalFields ((k, v) :: t) =
          (k, processValue defaultNominalFields k v) ::
            processEntries defaultNominalFields t from rfl]
        exact NormSpecEntries.cons k v _ t _
          ((ih _ hv).2.1 k v le_rfl)
          ((ih _ ht).2.2.1 t le_rfl)
    have items : ∀ l : List JVal, sizeOf l ≤ n →
        NormSpecList l (processList defaultNominalFields l) := by
      intro l hl
      match l with
      | [] => exact NormSpecList.nil
      | v :: t =>
        have hsz : sizeOf (v :: t) = 1 + sizeOf v + sizeOf t := by simp
        have hv : sizeOf v < n := by omega
        have ht : sizeOf t < n := by omega
        rw [show processList defaultNominalFields (v :: t) =
          process_item defaultNominalFields v ::
            processList defaultNominalFields t from rfl]
        exact NormSpecList.cons v _ t _
          ((ih _ hv).1 v le_rfl)
          ((ih _ ht).2.2.2 t le_rfl)
    refine ⟨?_, ?_, entries, items⟩
    · intro v hv
      match v with
      | .str s => exact NormSpecItem.str s
      | .num q => exact NormSpecItem.num q
      | .bool b => exact NormSpecItem.bool b
      | .null => exact NormSpecItem.null
      | .obj l =>
        have : sizeOf l ≤ n := by
          have : sizeOf (JVal.obj l) = 1 + sizeOf l := by simp
          omega
        exact NormSpecItem.obj l _ (entries l this)
      | .arr l =>
        have : sizeOf l ≤ n := by
          have : sizeOf (JVal.arr l) = 1 + sizeOf l := by simp
          omega
        exact NormSpecItem.arr l _ (items l this)
    · intro k v hv
      match v with
      | .str s =>
        by_cases h : kwMatch defaultNominalFields k = true
        · rw [show processValue defaultNominalFields k (.str s) =
            if kwMatch defaultNominalFields k then .str (normalize_scalar s)
            else .str s from rfl, if_pos h]
          exact NormSpecVal.strMatch k s h
        · rw [show processValue defaultNominalFields k (.str s) =
            if kwMatch defaultNominalFields k then .str (normalize_scalar s)
            else .str s from rfl, if_neg h]
          exact NormSpecVal.strNoMatch k s (by simpa using h)
      | .num q => exact NormSpecVal.num k q
      | .bool b => exact NormSpecVal.bool k b
      | .null => exact NormSpecVal.null k
      | .obj l =>
        have : sizeOf l ≤ n := by
          have : sizeOf (JVal.obj l) = 1 + sizeOf l := by simp
          omega
        exact NormSpecVal.obj k l _ (entries l this)
      | .arr l =>
        have : sizeOf l ≤ n := by
          have : sizeOf (JVal.arr l) = 1 + sizeOf l := by simp
          omega
        exact NormSpecVal.arr k l _ (items l this)

/-- Claim C9: `format_all_nominal_fields` returns a structure of the same
shape — no keys added or removed, keyword-matching string values replaced
by `normalize_scalar` at every nesting depth, everything else untouched
(as captured by the spec-side relation `NormSpecEntries`). -/
theorem c9_normalize_record_frame (l : Page) :
    NormSpecEntries l (format_all_nominal_fields l) :=
  (processSpec_all (sizeOf l)).2.2.1 l le_rfl

/-! ## Canonical-format lemmas -/

theorem isDig_digitChar (d : ℕ) (h : d < 10) : isDig (digitChar d) = true := by
  interval_cases d <;> decide

theorem isDig_ne_dash (c : Char) (h : isDig c = true) : (c == '-') = false := by
  cases hb : c == '-'
  · rfl
  · rw [beq_iff_eq] at hb
    subst hb
    exact absurd h (by decide)

theorem digsRev_eq_digits : ∀ fuel n : ℕ, n ≤ fuel → digsRev fuel n = Nat.digits 10 n := by
  intro fuel
  induction fuel with
  | zero =>
    intro n h
    interval_cases n
    simp [digsRev]
  | succ f ih =>
    intro n h
    by_cases hn : n = 0
    · subst hn; simp [digsRev]
    · rw [digsRev, if_neg hn,
        Nat.digits_def' (by norm_num : 1 < 10) (Nat.pos_of_ne_zero hn)]
      have hlt := Nat.div_lt_self (Nat.pos_of_ne_zero hn) (by norm_num : 1 < 10)
      rw [ih (n / 10) (by omega)]

theorem natDigs_eq (n : ℕ) (hn : n ≠ 0) :
    natDigs n = ((Nat.digits 10 n).map digitChar).reverse := by
  rw [natDigs, if_neg hn, digsRev_eq_digits n n le_rfl]

theorem natDigs_ne_nil (n : ℕ) : natDigs n ≠ [] := by
  by_cases hn : n = 0
  · subst hn; simp [natDigs]
  · rw [natDigs_eq n hn]
    simp [Nat.digits_ne_nil_iff_ne_zero.mpr hn]

theorem natDigs_all_dig (n : ℕ) : (natDigs n).all isDig = true := by
  by_cases hn : n = 0
  · subst hn; decide
  · rw [natDigs_eq n hn, List.all_eq_true]
    intro c hc
    rw [List.mem_reverse, List.mem_map] at hc
    obtain ⟨d, hd, rfl⟩ := hc
    exact isDig_digitChar d (Nat.digits_lt_base (by norm_num) hd)

theorem g3go_cons4 (a b c d : Char) (t : List Char) :
    g3go (a :: b :: c :: d :: t) = a :: b :: c :: ',' :: g3go (d :: t) := rfl

theorem revGroups_g3go :
    ∀ (n : ℕ) (r : List Char), r.length ≤ n → r ≠ [] → r.all isDig = true →
      revGroups (g3go r) = true := by
  intro n
  induction n with
  | zero =>
    intro r h hne _
    exact absurd (List.length_eq_zero.mp (Nat.le_zero.mp h)) hne
  | succ m ih =>
    intro r hlen hne hd
    match r with
    | [] => exact absurd rfl hne
    | [a] =>
      rw [show g3go [a] = [a] from rfl]
      simpa [revGroups] using hd
    | [a, b] =>
      rw [show g3go [a, b] = [a, b] from rfl]
      simp only [List.all_cons, List.all_nil, Bool.and_eq_true] at hd
      simp [revGroups, hd.1, hd.2.1]
    | [a, b, c] =>
      rw [show g3go [a, b, c] = [a, b, c] from rfl]
      simp only [List.all_cons, List.all_nil, Bool.and_eq_true] at hd
      simp [revGroups, hd.1, hd.2.1, hd.2.2.1]
    | a :: b :: c :: d :: t =>
      rw [g3go_cons4]
      simp only [List.all_cons, Bool.and_eq_true] at hd
      have hrec := ih (d :: t) (by simp at hlen ⊢; omega) (by simp)
        (by simp [hd.2.2.2.1, hd.2.2.2.2])
      rw [show revGroups (a :: b :: c :: ',' :: g3go (d :: t)) =
        (isDig a && isDig b && isDig c && (',' == ',') && revGroups (g3go (d :: t)))
        from rfl]
      simp [hd.1, hd.2.1, hd.2.2.1, hrec]

theorem g3go_concat :
    ∀ (n : ℕ) (r : List Char), r.length ≤ n → r ≠ [] → r.all isDig = true →
      ∃ (x : Char) (t : List Char), g3go r = t ++ [x] ∧ isDig x = true := by
  intro n
  induction n with
  | zero =>
    intro r h hne _
    exact absurd (List.length_eq_zero.mp (Nat.le_zero.mp h)) hne
  | succ m ih =>
    intro r hlen hne hd
    match r with
    | [] => exact absurd rfl hne
    | [a] =>
      simp only [List.all_cons, List.all_nil, Bool.and_eq_true] at hd
      exact ⟨a, [], rfl, hd.1⟩
    | [a, b] =>
      simp only [List.all_cons, List.all_nil, Bool.and_eq_true] at hd
      exact ⟨b, [a], rfl, hd.2.1⟩
    | [a, b, c] =>
      simp only [List.all_cons, List.all_nil, Bool.and_eq_true] at hd
      exact ⟨c, [a, b], rfl, hd.2.2.1⟩
    | a :: b :: c :: d :: t =>
      simp only [List.all_cons, Bool.and_eq_true] at hd
      obtain ⟨x, t', hx, hdx⟩ := ih (d :: t) (by simp at hlen ⊢; omega)
        (by simp) (by simp [hd.2.2.2.1, hd.2.2.2.2])
      exact ⟨x, a :: b :: c :: ',' :: t', by rw [g3go_cons4, hx]; rfl, hdx⟩

theorem group3_head_dig (l : List Char) (hne : l ≠ []) (hd : l.all isDig = true) :
    ∃ a t, group3 l = a :: t ∧ isDig a = true := by
  obtain ⟨x, t, hx, hdx⟩ := g3go_concat l.reverse.length l.reverse le_rfl
    (by simpa using hne) (by simpa using hd)
  exact ⟨x, t.reverse, by simp [group3, hx], hdx⟩

theorem canonBody_build (digs : List Char) (f1 f2 : Char)
    (hne : digs ≠ []) (hd : digs.all isDig = true)
    (h1 : isDig f1 = true) (h2 : isDig f2 = true) :
    canonBody (group3 digs ++ '.' :: [f1, f2]) = true := by
  have hrev : (group3 digs ++ '.' :: [f1, f2]).reverse =
      f2 :: f1 :: '.' :: g3go digs.reverse := by
    simp [group3]
  rw [show canonBody (group3 digs ++ '.' :: [f1, f2]) =
    (match (group3 digs ++ '.' :: [f1, f2]).reverse with
     | a :: b :: c :: t => isDig a && isDig b && (c == '.') && revGroups t
     | _ => false) from rfl]
  rw [hrev]
  have hg := revGroups_g3go digs.reverse.length digs.reverse le_rfl
    (by simpa using hne) (by simpa using hd)
  simp [h1, h2, hg]

theorem twoDigits_dig (m : ℕ) (h : m < 100) :
    isDig (digitChar (m / 10)) = true ∧ isDig (digitChar (m % 10)) = true :=
  ⟨isDig_digitChar _ (by omega), isDig_digitChar _ (Nat.mod_lt _ (by norm_num))⟩

/-- Any finite float formats to a string matching the canonical pattern. -/
theorem isCanonical_fmt (s : Bool) (m : ℕ) (d : ℤ) :
    isCanonical (formatFloat2f (.finite s m d)) = true := by
  obtain ⟨hf1, hf2⟩ := twoDigits_dig (rne100 m d % 100) (Nat.mod_lt _ (by norm_num))
  have hd := natDigs_all_dig (rne100 m d / 100)
  have hne := natDigs_ne_nil (rne100 m d / 100)
  cases s
  · obtain ⟨a, t, hat, hda⟩ := group3_head_dig _ hne hd
    have hdata : formatFloat2f (.finite false m d) = String.mk
        ((a :: t) ++ '.' :: twoDigits (rne100 m d % 100)) := by
      rw [show formatFloat2f (.finite false m d) = String.mk
        (group3 (natDigs (rne100 m d / 100)) ++
          '.' :: twoDigits (rne100 m d % 100)) from rfl, hat]
    rw [hdata]
    rw [show isCanonical (String.mk ((a :: t) ++ '.' :: twoDigits (rne100 m d % 100))) =
      (if a == '-' then canonBody (t ++ '.' :: twoDigits (rne100 m d % 100))
       else canonBody ((a :: t) ++ '.' :: twoDigits (rne100 m d % 100))) from rfl]
    rw [isDig_ne_dash a hda]
    simp only [Bool.false_eq_true, if_false]
    rw [← hat]
    exact canonBody_build _ _ _ hne hd hf1 hf2
  · rw [show isCanonical (formatFloat2f (.finite true m d)) =
      (if '-' == '-' then canonBody (group3 (natDigs (rne100 m d / 100)) ++
        '.' :: twoDigits (rne100 m d % 100)) else false) from rfl]
    simp only [beq_self_eq_true, if_true]
    exact canonBody_build _ _ _ hne hd hf1 hf2

/-- Every output of the common `%.2f`-plus-thousands formatting step is
canonical or an infinity rendering. -/
theorem fmt_canon_or_inf (pf : PyF) :
    isCanonical (formatFloat2f pf) = true ∨
    formatFloat2f pf = "inf" ∨ formatFloat2f pf = "-inf" := by
  rcases pf with sgn | ⟨sgn, m, d⟩
  · cases sgn
    · right; left; rfl
    · right; right; rfl
  · left; exact isCanonical_fmt sgn m d

/-- The tail of the main branch (parse the standardized string, negate if
required, format) always yields a canonical string, an infinity, or the
`"0.00"` fallback (itself canonical). -/
theorem finish_canon_or_inf (o : Option PyF) (neg : Bool) :
    isCanonical (match o with
      | none => "0.00"
      | some pf => formatFloat2f (if neg then PyF.neg pf else pf)) = true ∨
    (match o with
      | none => "0.00"
      | some pf => formatFloat2f (if neg then PyF.neg pf else pf)) = "inf" ∨
    (match o with
      | none => "0.00"
      | some pf => formatFloat2f (if neg then PyF.neg pf else pf)) = "-inf" := by
  rcases o with _ | pf
  · left
    show isCanonical "0.00" = true
    decide
  · cases neg
    · simp only [Bool.false_eq_true, if_false]
      exact fmt_canon_or_inf pf
    · simp only [if_true]
      rcases pf with sgn | ⟨sgn, m, d⟩
      · cases sgn
        · right; right; rfl
        · right; left; rfl
      · left; exact isCanonical_fmt (!sgn) m d

/-- Claim C1 (amended): `normalize_scalar` returns the empty string for
empty or whitespace-only input; for every other input it returns a string
matching `-?\d{1,3}(,\d{3})*\.\d{2}` (with `"0.00"` the unparseable
fallback) — or `"inf"`/`"-inf"` when the parsed magnitude overflows the
double range. -/
theorem c1_output_canonical (s : String) :
    (isBlank s = true → normalize_scalar s = "") ∧
    (isBlank s = false → isCanonical (normalize_scalar s) = true ∨
      normalize_scalar s = "inf" ∨ normalize_scalar s = "-inf") := by
  constructor
  · intro hb
    unfold isBlank at hb
    simp [normalize_scalar, format_nominal_to_international_format, hb]
  · intro hb
    unfold isBlank at hb
    unfold normalize_scalar format_nominal_to_international_format
    simp only [hb, Bool.false_eq_true, if_false]
    rcases hsci : (if hasE s.data then pyFloat s.data else none) with _ | pf
    · exact finish_canon_or_inf _ _
    · exact fmt_canon_or_inf pf

/-- Claim C1 counterexample: the non-blank input `"1e999"` overflows the
double range and is normalized to `"inf"`, which neither matches the
canonical pattern nor equals the empty string or `"0.00"`. -/
theorem c1_output_canonical_counterexample :
    normalize_scalar "1e999" = "inf" ∧ isBlank "1e999" = false ∧
    isCanonical "inf" = false ∧ "inf" ≠ "" ∧ "inf" ≠ "0.00" :=
  ⟨by decide, by decide, by decide, by decide, by decide⟩

/-- Claim C1 witness: blank input maps to `""`, and `"abc"` (unparseable)
yields a canonical-or-infinite output (in fact `"0.00"`). -/
theorem c1_output_canonical_witness :
    normalize_scalar " " = "" ∧
    (isCanonical (normalize_scalar "abc") = true ∨
      normalize_scalar "abc" = "inf" ∨ normalize_scalar "abc" = "-inf") :=
  ⟨(c1_output_canonical " ").1 (by decide),
   (c1_output_canonical "abc").2 (by decide)⟩

/-! ## Character facts and scanner lemmas (toward idempotence) -/

theorem isDig_toNat (c : Char) (h : isDig c = true) :
    48 ≤ c.toNat ∧ c.toNat ≤ 57 := by
  simpa [isDig] using h

theorem ne_of_toNat_ne {c d : Char} (h : c.toNat ≠ d.toNat) : c ≠ d :=
  fun he => h (he ▸ rfl)

theorem isDig_ne (c : Char) (h : isDig c = true) :
    c ≠ ',' ∧ c ≠ '.' ∧ c ≠ '-' ∧ c ≠ 'e' ∧ c ≠ 'E' ∧ c ≠ '_' ∧
    c ≠ '+' ∧ c ≠ '\n' := by
  refine ⟨?_, ?_, ?_, ?_, ?_, ?_, ?_, ?_⟩ <;>
    (intro he; subst he; exact absurd h (by decide))

theorem isDig_not_space (c : Char) (h : isDig c = true) :
    pyIsSpace c = false := by
  obtain ⟨h1, h2⟩ := isDig_toNat c h
  cases hs : pyIsSpace c
  · rfl
  · exfalso
    unfold pyIsSpace at hs
    rw [decide_eq_true_iff] at hs
    simp only [List.mem_cons, List.not_mem_nil, or_false] at hs
    omega

theorem isDig_keepChar (c : Char) (h : isDig c = true) : keepChar c = true := by
  simp [keepChar, h]

/-- Every character of `group3` of a digit string is a digit or a comma. -/
theorem g3go_chars :
    ∀ (n : ℕ) (r : List Char), r.length ≤ n → r.all isDig = true →
      ∀ c ∈ g3go r, isDig c = true ∨ c = ',' := by
  intro n
  induction n with
  | zero =>
    intro r h _ c hc
    rw [List.length_eq_zero.mp (Nat.le_zero.mp h)] at hc
    simp [g3go] at hc
  | succ m ih =>
    intro r hlen hd c hc
    match r with
    | [] => simp [g3go] at hc
    | [a] =>
      rw [show g3go [a] = [a] from rfl] at hc
      simp only [List.mem_singleton] at hc
      subst hc
      simp only [List.all_cons, List.all_nil, Bool.and_eq_true] at hd
      exact Or.inl hd.1
    | [a, b] =>
      rw [show g3go [a, b] = [a, b] from rfl] at hc
      simp only [List.all_cons, List.all_nil, Bool.and_eq_true] at hd
      simp only [List.mem_cons, List.not_mem_nil, or_false] at hc
      rcases hc with hc | hc
      · exact Or.inl (hc ▸ hd.1)
      · exact Or.inl (hc ▸ hd.2.1)
    | [a, b, c'] =>
      rw [show g3go [a, b, c'] = [a, b, c'] from rfl] at hc
      simp only [List.all_cons, List.all_nil, Bool.and_eq_true] at hd
      simp only [List.mem_cons, List.not_mem_nil, or_false] at hc
      rcases hc with hc | hc | hc
      · exact Or.inl (hc ▸ hd.1)
      · exact Or.inl (hc ▸ hd.2.1)
      · exact Or.inl (hc ▸ hd.2.2.1)
    | a :: b :: c' :: d :: t =>
      rw [g3go_cons4] at hc
      simp only [List.all_cons, Bool.and_eq_true] at hd
      simp only [List.mem_cons] at hc
      rcases hc with hc | hc | hc | hc | hc
      · exact Or.inl (hc ▸ hd.1)
      · exact Or.inl (hc ▸ hd.2.1)
      · exact Or.inl (hc ▸ hd.2.2.1)
      · exact Or.inr hc
      · exact ih (d :: t) (by simp at hlen ⊢; omega)
          (by simp [hd.2.2.2.1, hd.2.2.2.2]) c
          (by simpa using hc)

theorem group3_chars (l : List Char) (hd : l.all isDig = true) :
    ∀ c ∈ group3 l, isDig c = true ∨ c = ',' := by
  intro c hc
  rw [group3, List.mem_reverse] at hc
  exact g3go_chars l.reverse.length l.reverse le_rfl (by simpa using hd) c hc

theorem group3_small (l : List Char) (h : l.length ≤ 3) : group3 l = l := by
  have : g3go l.reverse = l.reverse := by
    match l with
    | [] => rfl
    | [a] => rfl
    | [a, b] => rfl
    | [a, b, c] => rfl
    | a :: b :: c :: d :: t => simp at h
  simp [group3, this]

/-- Filtering the commas back out of `group3` recovers the digit string. -/
theorem g3go_filter :
    ∀ (n : ℕ) (r : List Char), r.length ≤ n → r.all isDig = true →
      (g3go r).filter (fun c => !(c == ',')) = r := by
  intro n
  induction n with
  | zero =>
    intro r h _
    rw [List.length_eq_zero.mp (Nat.le_zero.mp h)]
    rfl
  | succ m ih =>
    intro r hlen hd
    match r with
    | [] => rfl
    | [a] =>
      simp only [List.all_cons, List.all_nil, Bool.and_eq_true] at hd
      rw [show g3go [a] = [a] from rfl]
      simp [List.filter, beq_eq_false_iff_ne.mpr (isDig_ne a hd.1).1]
    | [a, b] =>
      simp only [List.all_cons, List.all_nil, Bool.and_eq_true] at hd
      rw [show g3go [a, b] = [a, b] from rfl]
      simp [List.filter, beq_eq_false_iff_ne.mpr (isDig_ne a hd.1).1,
        beq_eq_false_iff_ne.mpr (isDig_ne b hd.2.1).1]
    | [a, b, c] =>
      simp only [List.all_cons, List.all_nil, Bool.and_eq_true] at hd
      rw [show g3go [a, b, c] = [a, b, c] from rfl]
      simp [List.filter, beq_eq_false_iff_ne.mpr (isDig_ne a hd.1).1,
        beq_eq_false_iff_ne.mpr (isDig_ne b hd.2.1).1,
        beq_eq_false_iff_ne.mpr (isDig_ne c hd.2.2.1).1]
    | a :: b :: c :: d :: t =>
      simp only [List.all_cons, Bool.and_eq_true] at hd
      rw [g3go_cons4]
      have hrec := ih (d :: t) (by simp at hlen ⊢; omega)
        (by simp [hd.2.2.2.1, hd.2.2.2.2])
      simp only [List.filter_cons,
        beq_eq_false_iff_ne.mpr (isDig_ne a hd.1).1,
        beq_eq_false_iff_ne.mpr (isDig_ne b hd.2.1).1,
        beq_eq_false_iff_ne.mpr (isDig_ne c hd.2.2.1).1,
        beq_self_eq_true, Bool.not_true, Bool.not_false, if_true, if_false,
        Bool.false_eq_true, Bool.true_eq_false]
      rw [hrec]

theorem group3_filter (l : List Char) (hd : l.all isDig = true) :
    (group3 l).filter (fun c => !(c == ',')) = l := by
  rw [group3, List.filter_reverse,
    g3go_filter l.reverse.length l.reverse le_rfl (by simpa using hd),
    List.reverse_reverse]

/-- `g3go` preserves the head of a nonempty list. -/
theorem g3go_head_cons (h : Char) (rr : List Char) :
    ∃ X, g3go (h :: rr) = h :: X := by
  match rr with
  | [] => exact ⟨[], rfl⟩
  | [b] => exact ⟨[b], rfl⟩
  | [b, c] => exact ⟨[b, c], rfl⟩
  | b :: c :: d :: t => exact ⟨b :: c :: ',' :: g3go (d :: t), rfl⟩

/-- Structure of `group3` of a digit string of length at least 4: some
prefix, then a digit, a comma, and a final group of three digits. -/
theorem group3_decomp (digs : List Char) (h4 : 4 ≤ digs.length)
    (hd : digs.all isDig = true) :
    ∃ (u : List Char) (d0 x y z : Char),
      group3 digs = u ++ d0 :: ',' :: [x, y, z] ∧
      isDig d0 = true ∧ isDig x = true ∧ isDig y = true ∧ isDig z = true := by
  match hrev : digs.reverse with
  | [] =>
    exfalso
    rw [← List.length_reverse digs, hrev] at h4
    simp at h4
  | [r1] =>
    exfalso
    rw [← List.length_reverse digs, hrev] at h4
    simp at h4
  | [r1, r2] =>
    exfalso
    rw [← List.length_reverse digs, hrev] at h4
    simp at h4
  | [r1, r2, r3] =>
    exfalso
    rw [← List.length_reverse digs, hrev] at h4
    simp at h4
  | r1 :: r2 :: r3 :: h :: rr =>
    have hmem : ∀ c ∈ digs.reverse, isDig c = true := by
      intro c hc
      exact List.all_eq_true.mp (by simpa using hd) c (List.mem_reverse.mp hc)
    have hd1 : isDig r1 = true := hmem r1 (by rw [hrev]; simp)
    have hd2 : isDig r2 = true := hmem r2 (by rw [hrev]; simp)
    have hd3 : isDig r3 = true := hmem r3 (by rw [hrev]; simp)
    have hdh : isDig h = true := hmem h (by rw [hrev]; simp)
    obtain ⟨X, hX⟩ := g3go_head_cons h rr
    refine ⟨X.reverse, h, r3, r2, r1, ?_, hdh, hd3, hd2, hd1⟩
    rw [group3, hrev, g3go_cons4, hX]
    simp

/-- `searchPat` finds a window placed anywhere in the string, provided
the tail pattern matches. -/
theorem searchPat_suffices (s1 s2 : Char) (u : List Char)
    (d0 x y z : Char) (w : List Char)
    (h0 : isDig d0 = true) (hx : isDig x = true) (hy : isDig y = true)
    (hz : isDig z = true) (hw : gapSepD s2 w = true) :
    searchPat s1 s2 (u ++ d0 :: s1 :: x :: y :: z :: w) = true := by
  induction u with
  | nil =>
    rw [List.nil_append,
      show searchPat s1 s2 (d0 :: s1 :: x :: y :: z :: w) =
        (winAt s1 s2 (d0 :: s1 :: x :: y :: z :: w) ||
          searchPat s1 s2 (s1 :: x :: y :: z :: w)) from rfl]
    rw [show winAt s1 s2 (d0 :: s1 :: x :: y :: z :: w) =
      (isDig d0 && (s1 == s1) && isDig x && isDig y && isDig z &&
        gapSepD s2 w) from rfl]
    simp [h0, hx, hy, hz, hw]
  | cons a t ih =>
    rw [List.cons_append,
      show searchPat s1 s2 (a :: (t ++ d0 :: s1 :: x :: y :: z :: w)) =
        (winAt s1 s2 (a :: (t ++ d0 :: s1 :: x :: y :: z :: w)) ||
          searchPat s1 s2 (t ++ d0 :: s1 :: x :: y :: z :: w)) from rfl]
    rw [ih]
    simp

theorem gapSepD_mem (s2 : Char) :
    ∀ l, gapSepD s2 l = true → s2 ∈ l := by
  intro l
  induction l with
  | nil => intro h; simp [gapSepD] at h
  | cons c t ih =>
    intro h
    rw [show gapSepD s2 (c :: t) =
      (((c == s2) && headDig t) || (!(c == '\n') && gapSepD s2 t)) from rfl] at h
    rcases Bool.or_eq_true_iff.mp h with h | h
    · rw [Bool.and_eq_true, beq_iff_eq] at h
      exact h.1 ▸ List.mem_cons_self c t
    · rw [Bool.and_eq_true] at h
      exact List.mem_cons_of_mem c (ih h.2)

theorem winAt_mem_s1 (s1 s2 : Char) (l : List Char)
    (h : winAt s1 s2 l = true) : s1 ∈ l := by
  match l with
  | a :: b :: c :: d :: e :: t =>
    rw [show winAt s1 s2 (a :: b :: c :: d :: e :: t) =
      (isDig a && (b == s1) && isDig c && isDig d && isDig e &&
        gapSepD s2 t) from rfl] at h
    simp only [Bool.and_eq_true, beq_iff_eq] at h
    rw [← h.1.1.1.1.2]
    simp
  | [] => simp [winAt] at h
  | [a] => simp [winAt] at h
  | [a, b] => simp [winAt] at h
  | [a, b, c] => simp [winAt] at h
  | [a, b, c, d] => simp [winAt] at h

theorem winAt_mem_s2 (s1 s2 : Char) (l : List Char)
    (h : winAt s1 s2 l = true) : s2 ∈ l := by
  match l with
  | a :: b :: c :: d :: e :: t =>
    rw [show winAt s1 s2 (a :: b :: c :: d :: e :: t) =
      (isDig a && (b == s1) && isDig c && isDig d && isDig e &&
        gapSepD s2 t) from rfl] at h
    simp only [Bool.and_eq_true] at h
    have := gapSepD_mem s2 t h.2
    simp [this]
  | [] => simp [winAt] at h
  | [a] => simp [winAt] at h
  | [a, b] => simp [winAt] at h
  | [a, b, c] => simp [winAt] at h
  | [a, b, c, d] => simp [winAt] at h

theorem searchPat_mem_s1 (s1 s2 : Char) :
    ∀ l, searchPat s1 s2 l = true → s1 ∈ l := by
  intro l
  induction l with
  | nil => intro h; simp [searchPat] at h
  | cons x t ih =>
    intro h
    rw [show searchPat s1 s2 (x :: t) =
      (winAt s1 s2 (x :: t) || searchPat s1 s2 t) from rfl] at h
    rcases Bool.or_eq_true_iff.mp h with h | h
    · exact winAt_mem_s1 _ _ _ h
    · exact List.mem_cons_of_mem x (ih h)

theorem searchPat_mem_s2 (s1 s2 : Char) :
    ∀ l, searchPat s1 s2 l = true → s2 ∈ l := by
  intro l
  induction l with
  | nil => intro h; simp [searchPat] at h
  | cons x t ih =>
    intro h
    rw [show searchPat s1 s2 (x :: t) =
      (winAt s1 s2 (x :: t) || searchPat s1 s2 t) from rfl] at h
    rcases Bool.or_eq_true_iff.mp h with h | h
    · exact winAt_mem_s2 _ _ _ h
    · exact List.mem_cons_of_mem x (ih h)

/-! ## Parsing and rounding lemmas (toward idempotence) -/

theorem takeDigitPartCont_digits :
    ∀ (u r : List Char), u.all isDig = true →
      (r = [] ∨ ∃ c t, r = c :: t ∧ isDig c = false ∧ (c == '_') = false) →
      takeDigitPartCont (u ++ r) = (u.map dval, r) := by
  intro u
  induction u with
  | nil =>
    intro r _ hr
    rcases hr with rfl | ⟨c, t, rfl, hc1, hc2⟩
    · rfl
    · rw [List.nil_append, takeDigitPartCont.eq_def]
      simp [hc1, hc2]
  | cons a t ih =>
    intro r hu hr
    simp only [List.all_cons, Bool.and_eq_true] at hu
    rw [List.cons_append, takeDigitPartCont.eq_def]
    simp [hu.1, ih r hu.2 hr]

theorem takeDigitPart_digits (u r : List Char) (hne : u ≠ [])
    (hd : u.all isDig = true)
    (hr : r = [] ∨ ∃ c t, r = c :: t ∧ isDig c = false ∧ (c == '_') = false) :
    takeDigitPart (u ++ r) = (u.map dval, r) := by
  match u with
  | [] => exact absurd rfl hne
  | a :: t =>
    simp only [List.all_cons, Bool.and_eq_true] at hd
    simp [takeDigitPart, hd.1, takeDigitPartCont_digits t r hd.2 hr]

theorem dropWhile_eq_self_of_all {p : Char → Bool} {l : List Char}
    (h : ∀ c ∈ l, p c = false) : l.dropWhile p = l := by
  match l with
  | [] => rfl
  | a :: t =>
    rw [List.dropWhile_cons, h a (by simp)]
    simp

theorem trimWs_eq_self (l : List Char) (h : ∀ c ∈ l, pyIsSpace c = false) :
    trimWs l = l := by
  unfold trimWs
  rw [dropWhile_eq_self_of_all h,
    dropWhile_eq_self_of_all (fun c hc => h c (List.mem_reverse.mp hc)),
    List.reverse_reverse]

/-- `pyFloat` on the standardized digit-dot-digits string of the main
branch parses exactly. -/
theorem pyFloat_std (digs : List Char) (f1 f2 : Char) (hne : digs ≠ [])
    (hd : digs.all isDig = true) (h1 : isDig f1 = true) (h2 : isDig f2 = true) :
    pyFloat (digs ++ '.' :: [f1, f2]) =
      some (mkPyF false (digs.map dval) [dval f1, dval f2] 0) := by
  have hsp : ∀ c ∈ digs ++ '.' :: [f1, f2], pyIsSpace c = false := by
    intro c hc
    rcases List.mem_append.mp hc with hc | hc
    · exact isDig_not_space c (List.all_eq_true.mp hd c hc)
    · simp only [List.mem_cons, List.mem_singleton, List.not_mem_nil,
        or_false] at hc
      rcases hc with rfl | rfl | rfl
      · decide
      · exact isDig_not_space _ h1
      · exact isDig_not_space _ h2
  have htrim : trimWs (digs ++ '.' :: [f1, f2]) = digs ++ '.' :: [f1, f2] :=
    trimWs_eq_self _ hsp
  obtain ⟨dh, dt, rfl⟩ : ∃ dh dt, digs = dh :: dt := by
    match digs with
    | [] => exact absurd rfl hne
    | a :: t => exact ⟨a, t, rfl⟩
  have hdh : isDig dh = true := by
    simp only [List.all_cons, Bool.and_eq_true] at hd
    exact hd.1
  have hneg : headIs '-' ((dh :: dt) ++ '.' :: [f1, f2]) = false := by
    simp [headIs, beq_eq_false_iff_ne.mpr (isDig_ne dh hdh).2.2.1]
  have hplus : headIs '+' ((dh :: dt) ++ '.' :: [f1, f2]) = false := by
    simp [headIs, beq_eq_false_iff_ne.mpr (isDig_ne dh hdh).2.2.2.2.2.2.1]
  have htake : takeDigitPart ((dh :: dt) ++ '.' :: [f1, f2]) =
      ((dh :: dt).map dval, '.' :: [f1, f2]) :=
    takeDigitPart_digits _ _ (by simp) hd
      (Or.inr ⟨'.', [f1, f2], rfl, by decide, by decide⟩)
  have htake2 : takeDigitPart [f1, f2] = ([dval f1, dval f2], []) := by
    have := takeDigitPart_digits [f1, f2] [] (by simp)
      (by simp [h1, h2]) (Or.inl rfl)
    simpa using this
  rw [pyFloat]
  rw [htrim]
  rw [hneg, hplus]
  simp only [Bool.or_self, Bool.false_eq_true, if_false]
  rw [htake]
  simp only [headIs, beq_self_eq_true, if_true]
  rw [show (('.' :: [f1, f2]) : List Char).tail = [f1, f2] from rfl, htake2]
  simp

theorem dval_digitChar (d : ℕ) (h : d < 10) : dval (digitChar d) = d := by
  interval_cases d <;> rfl

theorem natValD_foldl (l : List ℕ) :
    ∀ i : ℕ, l.foldl (fun a d => 10 * a + d) i = i * 10 ^ l.length + natValD l := by
  induction l with
  | nil => intro i; simp [natValD]
  | cons d t ih =>
    intro i
    rw [show ((d :: t).foldl (fun a d => 10 * a + d) i) =
      t.foldl (fun a d => 10 * a + d) (10 * i + d) from rfl, ih]
    rw [show natValD (d :: t) = t.foldl (fun a d => 10 * a + d) (10 * 0 + d) from rfl,
      ih]
    simp [List.length_cons, pow_succ]
    ring

theorem natValD_append (u v : List ℕ) :
    natValD (u ++ v) = natValD u * 10 ^ v.length + natValD v := by
  rw [natValD, List.foldl_append, ← natValD, natValD_foldl]

theorem natValD_reverse_ofDigits :
    ∀ L : List ℕ, natValD L.reverse = Nat.ofDigits 10 L := by
  intro L
  induction L with
  | nil => rfl
  | cons d t ih =>
    rw [List.reverse_cons, natValD_append, ih, Nat.ofDigits_cons]
    simp [natValD]
    ring

theorem natValD_natDigs (n : ℕ) : natValD ((natDigs n).map dval) = n := by
  by_cases hn : n = 0
  · subst hn; decide
  · rw [natDigs_eq n hn, List.map_reverse, List.map_map]
    have hpt : (Nat.digits 10 n).map (dval ∘ digitChar) = Nat.digits 10 n := by
      have := List.map_congr_left (l := Nat.digits 10 n)
        (f := dval ∘ digitChar) (g := id)
        (fun d hd => dval_digitChar d (Nat.digits_lt_base (by norm_num) hd))
      simpa using this
    rw [hpt, natValD_reverse_ofDigits, Nat.ofDigits_digits]


theorem rneDiv_le (n D M : ℕ) (hD : 0 < D) (h : n ≤ M * D) :
    rneDiv n D ≤ M := by
  have hdm := Nat.div_add_mod n D
  have hmlt : n % D < D := Nat.mod_lt _ hD
  have hq : n / D ≤ M := by
    have := Nat.div_le_div_right (c := D) h
    rwa [Nat.mul_div_cancel _ hD] at this
  have hqlt : 1 ≤ n % D → n / D < M := by
    intro hr
    by_contra hge
    push_neg at hge
    have heq : n / D = M := le_antisymm hq hge
    rw [heq] at hdm
    have h' : n ≤ D * M := by rw [Nat.mul_comm D M]; exact h
    omega
  show (if 2 * (n % D) < D then n / D
    else if D < 2 * (n % D) then n / D + 1
    else if (n / D) % 2 = 0 then n / D else n / D + 1) ≤ M
  split_ifs with h1 h2 h3
  · exact hq
  · have := hqlt (by omega)
    omega
  · exact hq
  · have := hqlt (by omega)
    omega

theorem rne100_ofNat (m j : ℕ) :
    rne100 m (Int.ofNat j) = m * 10 ^ (j + 2) := rfl

theorem rne100_negSucc0 (m : ℕ) : rne100 m (Int.negSucc 0) = m * 10 ^ 1 := rfl

theorem rne100_negSucc1 (m : ℕ) : rne100 m (Int.negSucc 1) = m * 10 ^ 0 := rfl

theorem rne100_negSucc2 (m j : ℕ) :
    rne100 m (Int.negSucc (j + 2)) = rneDiv m (10 ^ (j + 1)) := rfl

theorem maxFloat_lt_thresh : maxFloatN < ovThreshN := by
  unfold maxFloatN ovThreshN
  have h1 : (2 : ℕ) ^ 971 ≤ 2 ^ 1024 := Nat.pow_le_pow_right (by norm_num) (by norm_num)
  have h2 : (2 : ℕ) ^ 970 < 2 ^ 971 := Nat.pow_lt_pow_right (by norm_num) (by norm_num)
  omega

/-- Bound on the cents integer of a finite float below the cap. -/
theorem rne100_le (m : ℕ) (d : ℤ)
    (h : (m = maxFloatN ∧ d = 0) ∨ decValGT m d maxFloatN = false) :
    rne100 m d ≤ 100 * maxFloatN := by
  rcases h with ⟨hm, hd⟩ | h
  · subst hm; subst hd
    rw [show (0 : ℤ) = Int.ofNat 0 from rfl, rne100_ofNat]
    norm_num [Nat.mul_comm]
  · match d with
    | Int.ofNat j =>
      rw [rne100_ofNat]
      rw [show decValGT m (Int.ofNat j) maxFloatN =
        decide (maxFloatN < m * 10 ^ j) from rfl] at h
      rw [decide_eq_false_iff_not, not_lt] at h
      rw [pow_add, ← mul_assoc]
      have h2 : m * 10 ^ j * 10 ^ 2 ≤ maxFloatN * 10 ^ 2 :=
        Nat.mul_le_mul_right _ h
      have h3 : maxFloatN * 10 ^ 2 = 100 * maxFloatN := by ring
      omega
    | Int.negSucc j =>
      match j with
      | 0 =>
        rw [rne100_negSucc0]
        rw [show decValGT m (Int.negSucc 0) maxFloatN =
          decide (maxFloatN * 10 ^ (0 + 1) < m) from rfl] at h
        rw [decide_eq_false_iff_not, not_lt] at h
        simp only [pow_one, zero_add, pow_succ, pow_zero, one_mul] at h ⊢
        omega
      | 1 =>
        rw [rne100_negSucc1]
        rw [show decValGT m (Int.negSucc 1) maxFloatN =
          decide (maxFloatN * 10 ^ (1 + 1) < m) from rfl] at h
        rw [decide_eq_false_iff_not, not_lt] at h
        simp only [pow_zero, mul_one]
        have h3 : maxFloatN * 10 ^ (1 + 1) = 100 * maxFloatN := by ring
        omega
      | j + 2 =>
        rw [rne100_negSucc2]
        rw [show decValGT m (Int.negSucc (j + 2)) maxFloatN =
          decide (maxFloatN * 10 ^ (j + 2 + 1) < m) from rfl] at h
        rw [decide_eq_false_iff_not, not_lt] at h
        apply rneDiv_le m (10 ^ (j + 1)) (100 * maxFloatN)
          (pow_pos (by norm_num) _)
        calc m ≤ maxFloatN * 10 ^ (j + 2 + 1) := h
          _ = 100 * maxFloatN * 10 ^ (j + 1) := by ring

theorem rne100_neg2 (k : ℕ) : rne100 k (-2) = k := by
  rw [show (-2 : ℤ) = Int.negSucc 1 from rfl, rne100_negSucc1]
  simp

theorem natValD_two (a b : ℕ) : natValD [a, b] = 10 * a + b := by
  show 10 * (10 * 0 + a) + b = 10 * a + b
  ring

/-- Re-parsing the standardized form of a formatted value recovers its
cents integer exactly. -/
theorem mkPyF_std (k : ℕ) (hk : k ≤ 100 * maxFloatN) :
    mkPyF false ((natDigs (k / 100)).map dval)
      [dval (digitChar (k % 100 / 10)), dval (digitChar (k % 100 % 10))] 0 =
    PyF.finite false k (-2) := by
  have hm100 : k % 100 < 100 := Nat.mod_lt _ (by norm_num)
  have hN : natValD (((natDigs (k / 100)).map dval) ++
      [dval (digitChar (k % 100 / 10)), dval (digitChar (k % 100 % 10))]) = k := by
    rw [natValD_append, natValD_natDigs, dval_digitChar _ (by omega),
      dval_digitChar _ (by omega), natValD_two]
    simp only [List.length_cons, List.length_nil]
    have : (10 : ℕ) ^ (0 + 1 + 1) = 100 := by norm_num
    rw [this]
    omega
  have hge : decValGE k (-2) ovThreshN = false := by
    rw [show (-2 : ℤ) = Int.negSucc 1 from rfl,
      show decValGE k (Int.negSucc 1) ovThreshN =
        decide (ovThreshN * 10 ^ (1 + 1) ≤ k) from rfl,
      decide_eq_false_iff_not, not_le]
    have h1 := maxFloat_lt_thresh
    have h2 : ovThreshN * 10 ^ (1 + 1) = 100 * ovThreshN := by ring
    omega
  have hgt : decValGT k (-2) maxFloatN = false := by
    rw [show (-2 : ℤ) = Int.negSucc 1 from rfl,
      show decValGT k (Int.negSucc 1) maxFloatN =
        decide (maxFloatN * 10 ^ (1 + 1) < k) from rfl,
      decide_eq_false_iff_not, not_lt]
    have h2 : maxFloatN * 10 ^ (1 + 1) = 100 * maxFloatN := by ring
    omega
  unfold mkPyF
  simp only [hN, List.length_cons, List.length_nil]
  rw [show ((0 : ℤ) - ((0 + 1 + 1 : ℕ) : ℤ)) = -2 by norm_num]
  rw [hge, hgt]
  simp

/-- Core of idempotence: normalizing a string of the canonical shape
(sign, grouped digit string, dot, two digits) re-parses and re-formats
it. -/
theorem normalize_canon_fix (sgn : Bool) (digs : List Char) (f1 f2 : Char)
    (hdne : digs ≠ []) (hdall : digs.all isDig = true)
    (hf1 : isDig f1 = true) (hf2 : isDig f2 = true) :
    normalize_scalar (String.mk ((if sgn then ['-'] else []) ++
      (group3 digs ++ '.' :: [f1, f2]))) =
    formatFloat2f (if sgn then
      PyF.neg (mkPyF false (digs.map dval) [dval f1, dval f2] 0)
      else mkPyF false (digs.map dval) [dval f1, dval f2] 0) := by
  have hbodymem : ∀ c ∈ group3 digs ++ '.' :: [f1, f2],
      isDig c = true ∨ c = ',' ∨ c = '.' := by
    intro c hc
    rcases List.mem_append.mp hc with hc | hc
    · rcases group3_chars digs hdall c hc with h | h
      · exact Or.inl h
      · exact Or.inr (Or.inl h)
    · simp only [List.mem_cons, List.mem_singleton, List.not_mem_nil,
        or_false] at hc
      rcases hc with rfl | rfl | rfl
      · exact Or.inr (Or.inr rfl)
      · exact Or.inl hf1
      · exact Or.inl hf2
  have hallmem : ∀ c ∈ (if sgn then ['-'] else []) ++
      (group3 digs ++ '.' :: [f1, f2]),
      isDig c = true ∨ c = ',' ∨ c = '.' ∨ c = '-' := by
    intro c hc
    rcases List.mem_append.mp hc with hc | hc
    · cases sgn
      · simp at hc
      · simp at hc
        exact Or.inr (Or.inr (Or.inr hc))
    · rcases hbodymem c hc with h | h | h
      · exact Or.inl h
      · exact Or.inr (Or.inl h)
      · exact Or.inr (Or.inr (Or.inl h))
  have hdotmem : '.' ∈ (if sgn then ['-'] else []) ++
      (group3 digs ++ '.' :: [f1, f2]) := by
    apply List.mem_append_right
    apply List.mem_append_right
    simp
  have hblank : ((if sgn then ['-'] else []) ++
      (group3 digs ++ '.' :: [f1, f2])).all pyIsSpace = false := by
    cases hall : ((if sgn then ['-'] else []) ++
        (group3 digs ++ '.' :: [f1, f2])).all pyIsSpace
    · rfl
    · exact absurd (List.all_eq_true.mp hall '.' hdotmem) (by decide)
  have hE : hasE ((if sgn then ['-'] else []) ++
      (group3 digs ++ '.' :: [f1, f2])) = false := by
    rw [hasE, List.any_eq_false]
    intro c hc
    rcases hallmem c hc with h | rfl | rfl | rfl
    · simp [beq_eq_false_iff_ne.mpr (isDig_ne c h).2.2.2.1,
        beq_eq_false_iff_ne.mpr (isDig_ne c h).2.2.2.2.1]
    · decide
    · decide
    · decide
  have hfilter : ((if sgn then ['-'] else []) ++
      (group3 digs ++ '.' :: [f1, f2])).filter keepChar =
      (if sgn then ['-'] else []) ++ (group3 digs ++ '.' :: [f1, f2]) := by
    rw [List.filter_eq_self]
    intro c hc
    rcases hallmem c hc with h | rfl | rfl | rfl
    · exact isDig_keepChar c h
    · decide
    · decide
    · decide
  obtain ⟨b0, bt, hb0, hb0d⟩ := group3_head_dig digs hdne hdall
  have hclean : (if headIs '-' ((if sgn then ['-'] else []) ++
      (group3 digs ++ '.' :: [f1, f2])) = true
      then ((if sgn then ['-'] else []) ++
        (group3 digs ++ '.' :: [f1, f2])).tail
      else ((if sgn then ['-'] else []) ++
        (group3 digs ++ '.' :: [f1, f2]))) =
      group3 digs ++ '.' :: [f1, f2] := by
    cases sgn
    · simp only [Bool.false_eq_true, if_false]
      rw [List.nil_append, hb0, List.cons_append]
      rw [show headIs '-' (b0 :: (bt ++ '.' :: [f1, f2])) = (b0 == '-') from rfl,
        isDig_ne_dash b0 hb0d]
      simp
    · simp only [if_true]
      rw [show ((['-'] : List Char) ++ (group3 digs ++ '.' :: [f1, f2])) =
        '-' :: (group3 digs ++ '.' :: [f1, f2]) from rfl]
      rw [show headIs '-' ('-' :: (group3 digs ++ '.' :: [f1, f2])) =
        ('-' == '-') from rfl]
      simp
  have hnegv : (if headIs '-' ((if sgn then ['-'] else []) ++
      (group3 digs ++ '.' :: [f1, f2])) = true then true
      else ((if sgn then ['-'] else []) ++
        (group3 digs ++ '.' :: [f1, f2])).contains '-') = sgn := by
    cases sgn
    · simp only [Bool.false_eq_true, if_false]
      rw [List.nil_append, hb0, List.cons_append]
      rw [show headIs '-' (b0 :: (bt ++ '.' :: [f1, f2])) = (b0 == '-') from rfl,
        isDig_ne_dash b0 hb0d]
      simp only [Bool.false_eq_true, if_false]
      rw [← List.cons_append, ← hb0]
      cases hcon : (group3 digs ++ '.' :: [f1, f2]).contains '-'
      · rfl
      · exfalso
        have hmem : '-' ∈ group3 digs ++ '.' :: [f1, f2] := by
          rw [List.contains_eq_any_beq] at hcon
          obtain ⟨x, hx, hbx⟩ := List.any_eq_true.mp hcon
          rw [beq_iff_eq] at hbx
          exact hbx ▸ hx
        rcases hbodymem '-' hmem with h | h | h
        · exact absurd h (by decide)
        · exact absurd h (by decide)
        · exact absurd h (by decide)
    · simp only [if_true]
      rw [show ((['-'] : List Char) ++ (group3 digs ++ '.' :: [f1, f2])) =
        '-' :: (group3 digs ++ '.' :: [f1, f2]) from rfl]
      rw [show headIs '-' ('-' :: (group3 digs ++ '.' :: [f1, f2])) =
        ('-' == '-') from rfl]
      simp
  have hcdot : (group3 digs ++ '.' :: [f1, f2]).count '.' = 1 := by
    rw [List.count_append]
    have h0 : (group3 digs).count '.' = 0 := by
      apply List.count_eq_zero_of_not_mem
      intro hmem
      rcases group3_chars digs hdall '.' hmem with h | h
      · exact absurd h (by decide)
      · exact absurd h (by decide)
    rw [h0]
    simp [List.count_cons,
      beq_eq_false_iff_ne.mpr (isDig_ne f1 hf1).2.1,
      beq_eq_false_iff_ne.mpr (isDig_ne f2 hf2).2.1]
  have hstd : (group3 digs ++ '.' :: [f1, f2]).filter (fun c => !(c == ',')) =
      digs ++ '.' :: [f1, f2] := by
    rw [List.filter_append, group3_filter digs hdall]
    congr 1
    simp [List.filter,
      beq_eq_false_iff_ne.mpr (isDig_ne f1 hf1).1,
      beq_eq_false_iff_ne.mpr (isDig_ne f2 hf2).1]
  have hdec : sepDecision ((if sgn then ['-'] else []) ++
      (group3 digs ++ '.' :: [f1, f2])) (group3 digs ++ '.' :: [f1, f2]) =
      (true, false) := by
    by_cases h4 : 4 ≤ digs.length
    · obtain ⟨u, d0, x, y, z, hu, hd0, hx, hy, hz⟩ := group3_decomp digs h4 hdall
      have hsp : searchPat ',' '.' ((if sgn then ['-'] else []) ++
          (group3 digs ++ '.' :: [f1, f2])) = true := by
        have hbody2 : (if sgn then ['-'] else []) ++
            (group3 digs ++ '.' :: [f1, f2]) =
            ((if sgn then ['-'] else []) ++ u) ++
              d0 :: ',' :: x :: y :: z :: ('.' :: [f1, f2]) := by
          rw [hu]; simp
        have hgap : gapSepD '.' ('.' :: [f1, f2]) = true := by
          rw [show gapSepD '.' ('.' :: [f1, f2]) =
              ((('.' : Char) == '.') && headDig [f1, f2] ||
                (!(('.' : Char) == '\n') && gapSepD '.' [f1, f2])) from rfl]
          simp [headDig, hf1]
        rw [hbody2]
        exact searchPat_suffices ',' '.' _ d0 x y z _ hd0 hx hy hz hgap
      unfold sepDecision
      rw [if_pos hsp]
    · push_neg at h4
      have hsm : group3 digs = digs := group3_small digs (by omega)
      have hncb : ',' ∉ group3 digs ++ '.' :: [f1, f2] := by
        rw [hsm]
        intro hmem
        rcases List.mem_append.mp hmem with h | h
        · exact absurd (List.all_eq_true.mp hdall ',' h) (by decide)
        · simp only [List.mem_cons, List.mem_singleton, List.not_mem_nil,
            or_false] at h
          rcases h with h | h | h
          · exact absurd h (by decide)
          · rw [← h] at hf1
            exact absurd hf1 (by decide)
          · rw [← h] at hf2
            exact absurd hf2 (by decide)
      have hnc : ',' ∉ (if sgn then ['-'] else []) ++
          (group3 digs ++ '.' :: [f1, f2]) := by
        intro hmem
        rcases List.mem_append.mp hmem with h | h
        · cases sgn
          · simp at h
          · simp at h
        · exact hncb h
      have hsp1 : searchPat ',' '.' ((if sgn then ['-'] else []) ++
          (group3 digs ++ '.' :: [f1, f2])) = false := by
        cases hs : searchPat ',' '.' ((if sgn then ['-'] else []) ++
            (group3 digs ++ '.' :: [f1, f2]))
        · rfl
        · exact absurd (searchPat_mem_s1 _ _ _ hs) hnc
      have hsp2 : searchPat '.' ',' ((if sgn then ['-'] else []) ++
          (group3 digs ++ '.' :: [f1, f2])) = false := by
        cases hs : searchPat '.' ',' ((if sgn then ['-'] else []) ++
            (group3 digs ++ '.' :: [f1, f2]))
        · rfl
        · exact absurd (searchPat_mem_s2 _ _ _ hs) hnc
      have hcc : (group3 digs ++ '.' :: [f1, f2]).count ',' = 0 :=
        List.count_eq_zero_of_not_mem hncb
      have hends : endsSep12 '.' (group3 digs ++ '.' :: [f1, f2]) = true := by
        unfold endsSep12
        rw [show (group3 digs ++ '.' :: [f1, f2]).reverse =
          f2 :: f1 :: '.' :: (group3 digs).reverse from by simp]
        obtain ⟨c0, t0, hdr⟩ : ∃ c0 t0, (group3 digs).reverse = c0 :: t0 := by
          rw [hsm]
          match hh : digs.reverse with
          | [] =>
            exfalso
            have : digs = [] := by
              have := congrArg List.reverse hh
              simpa using this
            exact hdne this
          | c0 :: t0 => exact ⟨c0, t0, rfl⟩
        have hdc0 : isDig c0 = true := by
          have hc0mem : c0 ∈ (group3 digs).reverse := by rw [hdr]; simp
          rw [hsm, List.mem_reverse] at hc0mem
          exact List.all_eq_true.mp hdall c0 hc0mem
        rw [hdr]
        show ((isDig f2 && (f1 == '.') && isDig '.') ||
          (isDig f2 && isDig f1 && (('.' : Char) == '.') &&
            headDig (c0 :: t0))) = true
        simp [hf1, hf2, headDig, hdc0]
      unfold sepDecision
      rw [hsp1, hsp2]
      simp only [Bool.false_eq_true, if_false]
      rw [if_neg (by rw [hcc]; omega), if_pos (by rw [hcdot]; omega)]
      rw [hends]
      simp
  have hpy : pyFloat (digs ++ '.' :: [f1, f2]) =
      some (mkPyF false (digs.map dval) [dval f1, dval f2] 0) :=
    pyFloat_std digs f1 f2 hdne hdall hf1 hf2
  unfold normalize_scalar format_nominal_to_international_format
  simp only [hblank, Bool.false_eq_true, if_false, hE, hfilter, hclean,
    hnegv, hdec, hcdot]
  simp only [Bool.true_and, Bool.false_and, decide_eq_true_eq,
    Nat.lt_irrefl, decide_False, Bool.and_false, if_false]
  simp only [Bool.false_eq_true, if_false, hstd]
  rw [hpy]

/-- Every float built by `mkPyF` is an infinity or a finite value whose
magnitude is at most the largest double. -/
theorem mkPyF_cases (sgn : Bool) (ip fp : List ℕ) (ex : ℤ) :
    (∃ b, mkPyF sgn ip fp ex = PyF.inf b) ∨
    (∃ s m d, ((m = maxFloatN ∧ d = (0 : ℤ)) ∨ decValGT m d maxFloatN = false) ∧
      mkPyF sgn ip fp ex = PyF.finite s m d) := by
  have hform : mkPyF sgn ip fp ex =
      (if decValGE (natValD (ip ++ fp)) (ex - (fp.length : ℤ)) ovThreshN
        then PyF.inf sgn
        else if decValGT (natValD (ip ++ fp)) (ex - (fp.length : ℤ)) maxFloatN
          then PyF.finite sgn maxFloatN 0
          else PyF.finite sgn (natValD (ip ++ fp)) (ex - (fp.length : ℤ))) := rfl
  rw [hform]
  by_cases h1 : decValGE (natValD (ip ++ fp)) (ex - (fp.length : ℤ)) ovThreshN = true
  · rw [if_pos h1]
    exact Or.inl ⟨sgn, rfl⟩
  · rw [if_neg h1]
    cases h2 : decValGT (natValD (ip ++ fp)) (ex - (fp.length : ℤ)) maxFloatN
    · simp only [Bool.false_eq_true, if_false]
      exact Or.inr ⟨sgn, _, _, Or.inr h2, rfl⟩
    · simp only [if_true]
      exact Or.inr ⟨sgn, maxFloatN, 0, Or.inl ⟨rfl, rfl⟩, rfl⟩

/-- Every float returned by `pyFloat` is an infinity or a capped finite
value. -/
theorem pyFloat_bound (l : List Char) (pf : PyF) (h : pyFloat l = some pf) :
    (∃ b, pf = PyF.inf b) ∨
    (∃ s m d, ((m = maxFloatN ∧ d = (0 : ℤ)) ∨ decValGT m d maxFloatN = false) ∧
      pf = PyF.finite s m d) := by
  unfold pyFloat at h
  dsimp only at h
  repeat' split at h
  all_goals
    first
      | exact Option.noConfusion h
      | (rw [← Option.some.inj h]
         exact mkPyF_cases _ _ _ _)

theorem formatFloat2f_neg2 (s : Bool) (k : ℕ) :
    formatFloat2f (PyF.finite s k (-2)) =
    String.mk ((if s then ['-'] else []) ++
      (group3 (natDigs (k / 100)) ++ '.' ::
        [digitChar (k % 100 / 10), digitChar (k % 100 % 10)])) := by
  have hform : formatFloat2f (PyF.finite s k (-2)) =
      String.mk (((if s then ['-'] else []) ++
        group3 (natDigs (rne100 k (-2) / 100))) ++ '.' ::
          [digitChar (rne100 k (-2) % 100 / 10),
           digitChar (rne100 k (-2) % 100 % 10)]) := rfl
  rw [hform, rne100_neg2, List.append_assoc]

/-- Formatted finite floats within the double range are fixed points of
`normalize_scalar`. -/
theorem normalize_fix (sgn : Bool) (m : ℕ) (d : ℤ)
    (hb : (m = maxFloatN ∧ d = 0) ∨ decValGT m d maxFloatN = false) :
    normalize_scalar (formatFloat2f (PyF.finite sgn m d)) =
      formatFloat2f (PyF.finite sgn m d) := by
  have hkle : rne100 m d ≤ 100 * maxFloatN := rne100_le m d hb
  have hm100 : rne100 m d % 100 < 100 := Nat.mod_lt _ (by norm_num)
  have h1 : isDig (digitChar (rne100 m d % 100 / 10)) = true :=
    isDig_digitChar _ (by omega)
  have h2 : isDig (digitChar (rne100 m d % 100 % 10)) = true :=
    isDig_digitChar _ (by omega)
  have hcore := normalize_canon_fix sgn (natDigs (rne100 m d / 100))
    (digitChar (rne100 m d % 100 / 10)) (digitChar (rne100 m d % 100 % 10))
    (natDigs_ne_nil _) (natDigs_all_dig _) h1 h2
  have hfmt0 : formatFloat2f (PyF.finite sgn m d) = String.mk
      (((if sgn then ['-'] else []) ++
        group3 (natDigs (rne100 m d / 100))) ++ '.' ::
          [digitChar (rne100 m d % 100 / 10),
           digitChar (rne100 m d % 100 % 10)]) := rfl
  have hfmt : formatFloat2f (PyF.finite sgn m d) = String.mk
      ((if sgn then ['-'] else []) ++
        (group3 (natDigs (rne100 m d / 100)) ++ '.' ::
          [digitChar (rne100 m d % 100 / 10),
           digitChar (rne100 m d % 100 % 10)])) := by
    rw [hfmt0, List.append_assoc]
  rw [hfmt, hcore, mkPyF_std _ hkle]
  cases sgn
  · simp only [Bool.false_eq_true, if_false]
    rw [formatFloat2f_neg2]
    simp
  · simp only [if_true]
    rw [show PyF.neg (PyF.finite false (rne100 m d) (-2)) =
      PyF.finite true (rne100 m d) (-2) from rfl, formatFloat2f_neg2]
    simp

/-- The fallback/format tail of the main branch yields an infinity
rendering or a capped formatted finite value. -/
theorem finish_cases (o : Option PyF) (neg : Bool) (r : String)
    (hr : r = match o with
      | none => "0.00"
      | some pf => formatFloat2f (if neg then PyF.neg pf else pf))
    (hpf : ∀ pf, o = some pf →
      (∃ b, pf = PyF.inf b) ∨
      (∃ s m d, ((m = maxFloatN ∧ d = (0 : ℤ)) ∨
        decValGT m d maxFloatN = false) ∧ pf = PyF.finite s m d)) :
    r = "inf" ∨ r = "-inf" ∨
    ∃ sgn m d, ((m = maxFloatN ∧ d = (0 : ℤ)) ∨ decValGT m d maxFloatN = false) ∧
      r = formatFloat2f (PyF.finite sgn m d) := by
  subst hr
  rcases o with _ | pf
  · right; right
    refine ⟨false, 0, 0, Or.inr ?_, ?_⟩
    · show decide (maxFloatN < 0 * 10 ^ 0) = false
      simp
    · show ("0.00" : String) = formatFloat2f (PyF.finite false 0 0)
      decide
  · rcases hpf pf rfl with ⟨b, rfl⟩ | ⟨s, m, d, hbd, rfl⟩
    · cases neg
      · cases b
        · left; decide
        · right; left; decide
      · cases b
        · right; left; decide
        · left; decide
    · right; right
      cases neg
      · exact ⟨s, m, d, hbd, rfl⟩
      · exact ⟨!s, m, d, hbd, rfl⟩

/-- Every output of `normalize_scalar` is the empty string, an infinity
rendering, or the formatting of some capped finite float. -/
theorem normalize_cases (s : String) :
    normalize_scalar s = "" ∨ normalize_scalar s = "inf" ∨
    normalize_scalar s = "-inf" ∨
    ∃ sgn m d, ((m = maxFloatN ∧ d = (0 : ℤ)) ∨ decValGT m d maxFloatN = false) ∧
      normalize_scalar s = formatFloat2f (PyF.finite sgn m d) := by
  unfold normalize_scalar format_nominal_to_international_format
  by_cases hb : s.data.all pyIsSpace = true
  · rw [if_pos hb]
    exact Or.inl rfl
  · rw [if_neg hb]
    rcases hsci : (if hasE s.data then pyFloat s.data else none) with _ | pf
    · exact Or.inr (finish_cases _ _ _ rfl (fun pf h => pyFloat_bound _ pf h))
    · have hEs : hasE s.data = true := by
        cases hE : hasE s.data
        · rw [hE] at hsci
          simp at hsci
        · rfl
      have hpy : pyFloat s.data = some pf := by
        simp only [hEs, if_true] at hsci
        exact hsci
      rcases pyFloat_bound _ pf hpy with ⟨b, rfl⟩ | ⟨sg, m, d, hbd, rfl⟩
      · cases b
        · exact Or.inr (Or.inl rfl)
        · exact Or.inr (Or.inr (Or.inl rfl))
      · exact Or.inr (Or.inr (Or.inr ⟨sg, m, d, hbd, rfl⟩))

/-- Claim C3 (amended): `normalize_scalar` is idempotent on every input
whose normalization is not an infinity rendering: whenever
`normalize_scalar x` is neither `"inf"` nor `"-inf"`, applying
`normalize_scalar` twice yields the same string as applying it once.
(The restriction is necessary: `"1e999"` normalizes to `"inf"`, which
re-normalizes to `"0.00"`.) -/
theorem c3_idempotent (x : String)
    (h1 : normalize_scalar x ≠ "inf") (h2 : normalize_scalar x ≠ "-inf") :
    normalize_scalar (normalize_scalar x) = normalize_scalar x := by
  rcases normalize_cases x with h | h | h | ⟨sgn, m, d, hbd, h⟩
  · rw [h]
    decide
  · exact absurd h h1
  · exact absurd h h2
  · rw [h]
    exact normalize_fix sgn m d hbd

/-- Claim C3 counterexample: unrestricted idempotence fails: `"1e999"`
normalizes to `"inf"`, but normalizing again gives `"0.00"`. -/
theorem c3_idempotent_counterexample :
    normalize_scalar "1e999" = "inf" ∧ normalize_scalar "inf" = "0.00" ∧
    normalize_scalar (normalize_scalar "1e999") ≠ normalize_scalar "1e999" :=
  ⟨by decide, by decide, by decide⟩

/-- Claim C3 witness: a concrete non-infinite input on which the amended
idempotence theorem applies. -/
theorem c3_idempotent_witness :
    normalize_scalar (normalize_scalar "1.234,56") = normalize_scalar "1.234,56" :=
  c3_idempotent "1.234,56" (by decide) (by decide)
